import Mathlib

/-!
# Caches: LRU, FIFO and LFU containers of `Caches.h`

Shallow embedding of the three class templates of `src/Caches.h`.

Modelling conventions.

* A `std::list` is a Lean `List` whose head is `front()` and whose last element is
  `back()`.  Where the source stores list iterators in a hash map, every list node
  carries a node identifier (a `Nat` drawn from an allocation counter `_next`), and an
  iterator is the identifier of the node it designates.
* A `std::unordered_map` is an association list with at most one pair per key;
  `size()` of a container is the length of the list.
* `int` is a 32 bit integer in two-complement representation and `size_t` a 64 bit unsigned integer.
  Every conversion between them that the source performs is written out with
  `toSizeT` and `toInt`.
* The mutex is not modelled: operations are sequential state transformers.
* Where the source would have undefined behaviour (`back()` or `pop_back()` of an empty
  list, dereference of a dangling iterator) the model leaves the state as it is; the
  lemmas on consistent states show that these branches are not taken in the states a
  cache reaches.
-/

namespace Caches

/-! ## Machine integers -/

/-- Conversion of an `int` to `size_t`, as in the comparison `m.size() > _maxSize`. -/
def toSizeT (i : Int) : Nat := (i % (2 : Int) ^ 64).toNat

/-- Conversion of a `size_t` to `int`, as in `int size = _cacheList.size()`. -/
def toInt (n : Nat) : Int :=
  if n % 2 ^ 32 < 2 ^ 31 then ((n % 2 ^ 32 : Nat) : Int)
  else ((n % 2 ^ 32 : Nat) : Int) - (2 : Int) ^ 32

/-- The values of type `int`. -/
def isInt (i : Int) : Prop := -(2 : Int) ^ 31 ≤ i ∧ i < (2 : Int) ^ 31

instance (i : Int) : Decidable (isInt i) := by
  unfold isInt
  exact inferInstance

/-! ## Hash maps as association lists -/

section UMap

variable {K β : Type} [DecidableEq K]

/-- Lookup `m.find(k)`: the mapped value, or `none` for `m.end()`. -/
def umFind : List (K × β) → K → Option β
  | [], _ => none
  | p :: t, k => if p.1 = k then some p.2 else umFind t k

/-- Removal `m.erase(k)`. -/
def umErase (mp : List (K × β)) (k : K) : List (K × β) :=
  mp.filter (fun p => decide (p.1 ≠ k))

/-- Assignment `m[k] = b`: overwrite the mapped value, or insert a new pair. -/
def umSet : List (K × β) → K → β → List (K × β)
  | [], k, b => [(k, b)]
  | p :: t, k, b => if p.1 = k then (k, b) :: t else p :: umSet t k b

end UMap

/-! ## Linked lists with node identifiers -/

/-- Removal `l.erase(it)` of the node that the iterator `it` designates. -/
def listErase {α : Type} (l : List (Nat × α)) (it : Nat) : List (Nat × α) :=
  l.eraseP (fun n => decide (n.1 = it))

/-- Dereference `*it` of an iterator into the list `l`. -/
def listAt {α : Type} (l : List (Nat × α)) (it : Nat) : Option α :=
  (l.find? (fun n => decide (n.1 = it))).map Prod.snd

/-- The loop `while (size-- > 0) l.pop_back();`. -/
def popBackN {α : Type} : Nat → List α → List α
  | 0, l => l
  | n + 1, l => popBackN n l.dropLast

/-! ## LRUCache -/

/-- State of `LRUCache<K, V>`: the recency list (most recent first), the index `m`
from keys to list iterators, and the capacity `_maxSize`. -/
structure LRUCache (K V : Type) where
  _cacheList : List (Nat × (K × V))
  m : List (K × Nat)
  _maxSize : Int
  _next : Nat
  deriving DecidableEq

namespace LRUCache

variable {K V : Type} [DecidableEq K]

/-- Constructor `LRUCache(int size)`. -/
def new (size : Int) : LRUCache K V :=
  { _cacheList := [], m := [], _maxSize := size, _next := 0 }

/-- Method `void produce(K key, V val)`. -/
def produce (s : LRUCache K V) (key : K) (val : V) : LRUCache K V :=
  -- _cacheList.emplace_front(std::pair <K, V>(key, val));
  let l1 := (s._next, (key, val)) :: s._cacheList
  -- auto it = m.find(key); if (it != m.end()) { _cacheList.erase(it->second); m.erase(it); }
  let l2 := match umFind s.m key with
    | some it => listErase l1 it
    | none => l1
  let m2 := match umFind s.m key with
    | some _ => umErase s.m key
    | none => s.m
  -- m[key] = _cacheList.begin();
  let m3 := umSet m2 key s._next
  -- if (m.size() > _maxSize) { auto last = _cacheList.end(); m.erase((--last)->first); _cacheList.pop_back(); }
  if m3.length > toSizeT s._maxSize then
    match l2.getLast? with
    | some last =>
      { _cacheList := l2.dropLast, m := umErase m3 last.2.1, _maxSize := s._maxSize,
        _next := s._next + 1 }
    | none => { _cacheList := l2, m := m3, _maxSize := s._maxSize, _next := s._next + 1 }
  else
    { _cacheList := l2, m := m3, _maxSize := s._maxSize, _next := s._next + 1 }

/-- Method `V consume(K key)`: the returned value and the state afterwards. -/
def consumeKey [Inhabited V] (s : LRUCache K V) (key : K) : V × LRUCache K V :=
  if s.m.length > 0 then
    match umFind s.m key with
    | some it =>
      match listAt s._cacheList it with
      | some kv =>
        (kv.2, { s with m := umErase s.m key, _cacheList := listErase s._cacheList it })
      | none => (default, s)
    | none => (default, s)
  else (default, s)

/-- Method `std::pair <K, V> consume()`. -/
def consume [Inhabited K] [Inhabited V] (s : LRUCache K V) : (K × V) × LRUCache K V :=
  if s.m.length > 0 then
    match s._cacheList.getLast? with
    | some content =>
      (content.2,
        { s with m := umErase s.m content.2.1, _cacheList := s._cacheList.dropLast })
    | none => (default, s)
  else (default, s)

/-- The loop `while (num-- > 0) { ... }` of `consume(int num)`, with `res` the vector
filled so far. -/
def consumeLoop : Nat → LRUCache K V → List (K × V) → List (K × V) × LRUCache K V
  | 0, s, res => (res, s)
  | n + 1, s, res =>
    match s._cacheList.getLast? with
    | some content =>
      consumeLoop n
        { s with m := umErase s.m content.2.1, _cacheList := s._cacheList.dropLast }
        (res ++ [content.2])
    | none => (res, s)

/-- Method `std::vector <std::pair<K, V>> consume(int num)`. -/
def consumeN (s : LRUCache K V) (num : Int) : List (K × V) × LRUCache K V :=
  -- num = (m.size() > num) ? num : m.size();
  let num1 := toInt (if s.m.length > toSizeT num then toSizeT num else s.m.length)
  consumeLoop num1.toNat s []

/-- Method `int size()`. -/
def size (s : LRUCache K V) : Int := toInt s.m.length

/-- Method `int capacity()`. -/
def capacity (s : LRUCache K V) : Int := s._maxSize

/-- Method `void clear()`. -/
def clear (s : LRUCache K V) : LRUCache K V :=
  -- int size = _cacheList.size(); while (size-- > 0) _cacheList.pop_back(); m.clear();
  { s with _cacheList := popBackN (toInt s._cacheList.length).toNat s._cacheList, m := [] }

/-- Call of a public mutating method of `LRUCache`. -/
inductive Op (K V : Type) where
  | produce (key : K) (val : V)
  | consumeKey (key : K)
  | consume
  | consumeN (num : Int)
  | clear

/-- The arguments of the call are values of their C++ types. -/
def Op.valid : Op K V → Prop
  | .consumeN num => isInt num
  | _ => True

instance (op : Op K V) : Decidable op.valid := by
  cases op <;> unfold Op.valid <;> exact inferInstance

/-- State after one call (the returned value is dropped). -/
def step [Inhabited K] [Inhabited V] (s : LRUCache K V) : Op K V → LRUCache K V
  | .produce key val => s.produce key val
  | .consumeKey key => (s.consumeKey key).2
  | .consume => s.consume.2
  | .consumeN num => (s.consumeN num).2
  | .clear => s.clear

/-- State after a history of calls on a cache constructed with capacity `c`.  A history
lists the calls made so far, the latest call first. -/
def run [Inhabited K] [Inhabited V] (c : Int) : List (Op K V) → LRUCache K V
  | [] => new c
  | op :: h => (run c h).step op

/-- Histories of a cache constructed with the `int` capacity `c` in which every call has
`int` arguments and the cache never holds `2^31` or more entries, the range in which
`int size()` reports the number of entries.  For `0 ≤ c` every history of valid calls is
of this kind (`reachable_of_nonneg`). -/
def Reachable [Inhabited K] [Inhabited V] (c : Int) : List (Op K V) → Prop
  | [] => isInt c
  | op :: h => Reachable c h ∧ op.valid ∧ (run c (op :: h))._cacheList.length < 2 ^ 31

instance [Inhabited K] [Inhabited V] (c : Int) (h : List (Op K V)) :
    Decidable (Reachable c h) := by
  induction h with
  | nil => unfold Reachable; exact inferInstance
  | cons op h ih => unfold Reachable; exact inferInstance

/-- The entries of the cache in recency order, most recently used first. -/
def entries (s : LRUCache K V) : List (K × V) := s._cacheList.map Prod.snd

/-- The key is in the index, the test `m.find(key) != m.end()`. -/
def contains (s : LRUCache K V) (key : K) : Prop := (umFind s.m key).isSome = true

instance (s : LRUCache K V) (key : K) : Decidable (s.contains key) := by
  unfold contains; exact inferInstance

/-- Time (number of earlier calls) and value of the latest `produce` for `key` in a
history. -/
def lastProduce : List (Op K V) → K → Option (Nat × V)
  | [], _ => none
  | .produce k v :: h, key => if k = key then some (h.length, v) else lastProduce h key
  | _ :: h, key => lastProduce h key

/-- Results of `n` successive calls of `consume()`, and the state after them. -/
def consumes [Inhabited K] [Inhabited V] : Nat → LRUCache K V → List (K × V) × LRUCache K V
  | 0, s => ([], s)
  | n + 1, s => ((s.consume.1 :: (consumes n s.consume.2).1), (consumes n s.consume.2).2)

/-- Consistency of the index `m` with the recency list: node identifiers and keys of the
list are pairwise distinct, identifiers are below the allocation counter, and `m` maps
exactly the keys of the list, each to the node that carries it. -/
structure Consistent (s : LRUCache K V) : Prop where
  ids_nodup : (s._cacheList.map Prod.fst).Nodup
  ids_lt : ∀ n ∈ s._cacheList, n.1 < s._next
  keys_nodup : (s._cacheList.map (fun n => n.2.1)).Nodup
  m_nodup : (s.m.map Prod.fst).Nodup
  m_iff : ∀ k it, (k, it) ∈ s.m ↔ ∃ v, (it, (k, v)) ∈ s._cacheList

/-- State with the node `it` of key `k` unlinked from the list and `k` erased from `m`. -/
def eraseNode (s : LRUCache K V) (it : Nat) (k : K) : LRUCache K V :=
  { s with m := umErase s.m k, _cacheList := listErase s._cacheList it }

/-- State with a new node for `(key, val)` linked at the front and indexed in `m`. -/
def pushFront (s : LRUCache K V) (key : K) (val : V) : LRUCache K V :=
  { _cacheList := (s._next, (key, val)) :: s._cacheList, m := s.m ++ [(key, s._next)],
    _maxSize := s._maxSize, _next := s._next + 1 }

/-- State after the lookup-and-erase of `produce`: the old node of `key`, if any, is
unlinked. -/
def dropKey (s : LRUCache K V) (key : K) : LRUCache K V :=
  match umFind s.m key with
  | some it => s.eraseNode it key
  | none => s

/-- State after `m.erase(_cacheList.back().first); _cacheList.pop_back();`. -/
def popBack (s : LRUCache K V) : LRUCache K V :=
  match s._cacheList.getLast? with
  | some last => { s with m := umErase s.m last.2.1, _cacheList := s._cacheList.dropLast }
  | none => s

/-- Consistent states that respect the capacity bound. -/
def Good (s : LRUCache K V) : Prop :=
  s.Consistent ∧ s._cacheList.length ≤ toSizeT s._maxSize

/-- Time of the latest `produce` for `key` in a history (`0` when there is none). -/
def produceTime (h : List (Op K V)) (key : K) : Nat :=
  match lastProduce h key with
  | some tv => tv.1
  | none => 0

/-- Relation of a state to the history that led to it: every node carries the value of
the latest `produce` for its key, and the list is ordered by the time of that `produce`,
latest first. -/
def Tracked (h : List (Op K V)) (s : LRUCache K V) : Prop :=
  (∀ n ∈ s._cacheList, ∃ t, lastProduce h n.2.1 = some (t, n.2.2)) ∧
  s._cacheList.Pairwise (fun a b => produceTime h b.2.1 < produceTime h a.2.1)

end LRUCache

/-! ## FIFOCache -/

/-- State of `FIFOCache<T>`: the list of values (latest insertion first) and the
capacity `_maxSize`. -/
structure FIFOCache (T : Type) where
  _cacheList : List T
  _maxSize : Int
  deriving DecidableEq

namespace FIFOCache

variable {T : Type}

/-- Constructor `FIFOCache(int size)`. -/
def new (size : Int) : FIFOCache T := { _cacheList := [], _maxSize := size }

/-- Method `void produce(T t)`. -/
def produce (s : FIFOCache T) (t : T) : FIFOCache T :=
  -- _cacheList.emplace_front(t); if (_cacheList.size() > _maxSize) _cacheList.pop_back();
  if (t :: s._cacheList).length > toSizeT s._maxSize then
    { s with _cacheList := (t :: s._cacheList).dropLast }
  else { s with _cacheList := t :: s._cacheList }

/-- Method `T consume()`: the returned value and the state afterwards. -/
def consume [Inhabited T] (s : FIFOCache T) : T × FIFOCache T :=
  if s._cacheList.length > 0 then
    match s._cacheList.getLast? with
    | some val => (val, { s with _cacheList := s._cacheList.dropLast })
    | none => (default, s)
  else (default, s)

/-- The loop `while (num-- > 0) { ... }` of `consume(int num)`, with `res` the vector
filled so far. -/
def consumeLoop : Nat → FIFOCache T → List T → List T × FIFOCache T
  | 0, s, res => (res, s)
  | n + 1, s, res =>
    match s._cacheList.getLast? with
    | some val => consumeLoop n { s with _cacheList := s._cacheList.dropLast } (res ++ [val])
    | none => (res, s)

/-- Method `std::vector <T> consume(int num)`. -/
def consumeN (s : FIFOCache T) (num : Int) : List T × FIFOCache T :=
  -- num = (_cacheList.size() > num) ? num : _cacheList.size();
  let num1 :=
    toInt (if s._cacheList.length > toSizeT num then toSizeT num else s._cacheList.length)
  consumeLoop num1.toNat s []

/-- Method `int size()`. -/
def size (s : FIFOCache T) : Int := toInt s._cacheList.length

/-- Method `int capacity()`. -/
def capacity (s : FIFOCache T) : Int := s._maxSize

/-- Method `void clear()`. -/
def clear (s : FIFOCache T) : FIFOCache T :=
  -- int size = _cacheList.size(); while (size-- > 0) _cacheList.pop_back();
  { s with _cacheList := popBackN (toInt s._cacheList.length).toNat s._cacheList }

/-- Call of a public mutating method of `FIFOCache`. -/
inductive Op (T : Type) where
  | produce (t : T)
  | consume
  | consumeN (num : Int)
  | clear

/-- The arguments of the call are values of their C++ types. -/
def Op.valid : Op T → Prop
  | .consumeN num => isInt num
  | _ => True

instance (op : Op T) : Decidable op.valid := by
  cases op <;> unfold Op.valid <;> exact inferInstance

/-- State after one call (the returned value is dropped). -/
def step [Inhabited T] (s : FIFOCache T) : Op T → FIFOCache T
  | .produce t => s.produce t
  | .consume => s.consume.2
  | .consumeN num => (s.consumeN num).2
  | .clear => s.clear

/-- State after a history of calls (latest call first) on a cache constructed with
capacity `c`. -/
def run [Inhabited T] (c : Int) : List (Op T) → FIFOCache T
  | [] => new c
  | op :: h => (run c h).step op

/-- State after `produce(v)` for each `v` of `vs`, in the order of the list. -/
def produceAll (s : FIFOCache T) (vs : List T) : FIFOCache T := vs.foldl produce s

/-- Results of `n` successive calls of `consume()`, and the state after them. -/
def consumes [Inhabited T] : Nat → FIFOCache T → List T × FIFOCache T
  | 0, s => ([], s)
  | n + 1, s => ((s.consume.1 :: (consumes n s.consume.2).1), (consumes n s.consume.2).2)

end FIFOCache

/-! ## LFUCache

The frequency counters are C++ `int`s that the source only increments; they are modelled
as unbounded integers, so the model describes the executions in which no counter passes
`INT_MAX` (signed overflow has no defined behaviour). -/

/-- Bucket `_freqMap[f]` as read: the empty list when the map has no bucket for `f`. -/
def fmGet {K : Type} (fm : List (Int × List (Nat × K))) (f : Int) : List (Nat × K) :=
  (umFind fm f).getD []

/-- Access `_freqMap[f]` followed by an update `g` of the bucket; `operator[]` inserts an
empty bucket when there is none. -/
def fmModify {K : Type} (fm : List (Int × List (Nat × K))) (f : Int)
    (g : List (Nat × K) → List (Nat × K)) : List (Int × List (Nat × K)) :=
  umSet fm f (g (fmGet fm f))

/-- State of `LFUCache<K, V>`: `_cacheMap` from keys to (value, frequency), `_freqMap`
from frequencies to the list of keys at that frequency (oldest first), `_keyIter` from
keys to their node in that list, the tracked minimum `_minFreq` and the capacity. -/
structure LFUCache (K V : Type) where
  _maxSize : Int
  _minFreq : Int
  _cacheMap : List (K × (V × Int))
  _freqMap : List (Int × List (Nat × K))
  _keyIter : List (K × Nat)
  _next : Nat
  deriving DecidableEq

namespace LFUCache

variable {K V : Type} [DecidableEq K]

/-- Constructor `LFUCache(int size)`.  The constructor does not initialise `_minFreq`;
its indeterminate initial value is the parameter `minFreq`. -/
def new (size : Int) (minFreq : Int) : LFUCache K V :=
  { _maxSize := size, _minFreq := minFreq, _cacheMap := [], _freqMap := [], _keyIter := [],
    _next := 0 }

/-- The promotion shared by `consume` and `produce` on a key that is present with
frequency `fr`: the key leaves the bucket `fr`, is appended to the bucket `fr + 1`, and
`_minFreq` is incremented when its bucket is empty; `val` is the value stored with the
key afterwards. -/
def promote (s : LFUCache K V) (key : K) (val : V) (fr : Int) : LFUCache K V :=
  -- _freqMap[_cacheMap[key].second].erase(_keyIter[key]);
  let fm1 := fmModify s._freqMap fr (fun b =>
    match umFind s._keyIter key with
    | some it => listErase b it
    | none => b)
  -- _freqMap[++(_cacheMap[key].second)].push_back(key);
  let fm2 := fmModify fm1 (fr + 1) (fun b => b ++ [(s._next, key)])
  -- if (_freqMap[_minFreq].size() == 0) _minFreq++;
  let fm3 := fmModify fm2 s._minFreq id
  { _maxSize := s._maxSize,
    _minFreq := if (fmGet fm2 s._minFreq).length = 0 then s._minFreq + 1 else s._minFreq,
    _cacheMap := umSet s._cacheMap key (val, fr + 1),
    _freqMap := fm3,
    -- _keyIter[key] = --_freqMap[_cacheMap[key].second].end();
    _keyIter := umSet s._keyIter key s._next,
    _next := s._next + 1 }

/-- Method `V consume(K key)`: the returned value and the state afterwards. -/
def consume [Inhabited V] (s : LFUCache K V) (key : K) : V × LFUCache K V :=
  match umFind s._cacheMap key with
  | some vf => (vf.1, s.promote key vf.1 vf.2)
  | none => (default, s)

/-- The eviction of `produce`: the front of the bucket `_minFreq` leaves `_cacheMap`,
`_keyIter` and the bucket. -/
def evict (s : LFUCache K V) : LFUCache K V :=
  -- _cacheMap.erase(_freqMap[_minFreq].front()); _keyIter.erase(_freqMap[_minFreq].front());
  -- _freqMap[_minFreq].pop_front();
  match (fmGet s._freqMap s._minFreq).head? with
  | some victim =>
    { s with _cacheMap := umErase s._cacheMap victim.2,
             _keyIter := umErase s._keyIter victim.2,
             _freqMap := fmModify s._freqMap s._minFreq List.tail }
  | none => { s with _freqMap := fmModify s._freqMap s._minFreq id }

/-- The insertion of a new key at frequency 1, the last four statements of `produce`. -/
def insertNew (s : LFUCache K V) (key : K) (value : V) : LFUCache K V :=
  -- _cacheMap[key] = {value, 1}; _freqMap[1].push_back(key);
  -- _keyIter[key] = --_freqMap[1].end(); _minFreq = 1;
  { _maxSize := s._maxSize,
    _minFreq := 1,
    _cacheMap := umSet s._cacheMap key (value, 1),
    _freqMap := fmModify s._freqMap 1 (fun b => b ++ [(s._next, key)]),
    _keyIter := umSet s._keyIter key s._next,
    _next := s._next + 1 }

/-- Method `void produce(K key, V value)`. -/
def produce (s : LFUCache K V) (key : K) (value : V) : LFUCache K V :=
  if s._maxSize ≤ 0 then s
  else
    match umFind s._cacheMap key with
    | some vf => s.promote key value vf.2
    | none =>
      -- if (_cacheMap.size() >= _maxSize) { ... }
      (if s._cacheMap.length ≥ toSizeT s._maxSize then s.evict else s).insertNew key value

/-- Method `int size()`. -/
def size (s : LFUCache K V) : Int := toInt s._cacheMap.length

/-- Method `int capacity()`. -/
def capacity (s : LFUCache K V) : Int := s._maxSize

/-- Method `void clear()`. -/
def clear (s : LFUCache K V) : LFUCache K V :=
  { s with _cacheMap := [], _freqMap := [], _keyIter := [] }

/-- Call of a public mutating method of `LFUCache`. -/
inductive Op (K V : Type) where
  | produce (key : K) (value : V)
  | consume (key : K)
  | clear

/-- State after one call (the returned value is dropped). -/
def step [Inhabited V] (s : LFUCache K V) : Op K V → LFUCache K V
  | .produce key value => s.produce key value
  | .consume key => (s.consume key).2
  | .clear => s.clear

/-- State after a history of calls (latest call first) on a cache constructed with
capacity `c`; `mf` is the indeterminate initial `_minFreq`. -/
def run [Inhabited V] (c mf : Int) : List (Op K V) → LFUCache K V
  | [] => new c mf
  | op :: h => (run c mf h).step op

/-- The key is live, the test `_cacheMap.find(key) != _cacheMap.end()`. -/
def contains (s : LFUCache K V) (key : K) : Prop := (umFind s._cacheMap key).isSome = true

instance (s : LFUCache K V) (key : K) : Decidable (s.contains key) := by
  unfold contains; exact inferInstance

/-- Stored value of a key. -/
def value? (s : LFUCache K V) (key : K) : Option V := (umFind s._cacheMap key).map Prod.fst

/-- Recorded frequency of a key. -/
def freq? (s : LFUCache K V) (key : K) : Option Int := (umFind s._cacheMap key).map Prod.snd

/-- Consistency of the three maps of an `LFUCache`: every live key has its node in the
bucket of its recorded frequency, which is at least 1, every node of a bucket belongs to
a live key of that frequency, and `_keyIter` designates these nodes. -/
structure Wf (s : LFUCache K V) : Prop where
  cm_nodup : (s._cacheMap.map Prod.fst).Nodup
  bucket_nodup : ∀ f, ((fmGet s._freqMap f).map Prod.fst).Nodup
  ids_lt : ∀ f n, n ∈ fmGet s._freqMap f → n.1 < s._next
  live : ∀ k v f, umFind s._cacheMap k = some (v, f) →
    1 ≤ f ∧ ∃ it, umFind s._keyIter k = some it ∧ (it, k) ∈ fmGet s._freqMap f
  bucket : ∀ f it k, (it, k) ∈ fmGet s._freqMap f →
    umFind s._keyIter k = some it ∧ ∃ v, umFind s._cacheMap k = some (v, f)
  iter : ∀ k it, umFind s._keyIter k = some it → (umFind s._cacheMap k).isSome = true

/-- The tracked minimum of a non-empty cache: its bucket is not empty and no live key has
a lower frequency. -/
def MinOk (s : LFUCache K V) : Prop :=
  s._cacheMap ≠ [] → fmGet s._freqMap s._minFreq ≠ [] ∧
    ∀ k v f, umFind s._cacheMap k = some (v, f) → s._minFreq ≤ f

/-- Consistent states that respect the capacity bound. -/
def Good (s : LFUCache K V) : Prop :=
  s.Wf ∧ s.MinOk ∧ s._cacheMap.length ≤ toSizeT s._maxSize ∧ isInt s._maxSize

end LFUCache

end Caches


namespace Caches

section UMapLemmas
variable {K β : Type} [DecidableEq K]

theorem umFind_eq_none_iff (mp : List (K × β)) (k : K) :
    umFind mp k = none ↔ k ∉ mp.map Prod.fst := by
  induction mp with
  | nil => simp [umFind]
  | cons p t ih =>
    by_cases h : p.1 = k
    · simp [umFind, h]
    · simp only [umFind, h, if_false, ih, List.map_cons, List.mem_cons, not_or]
      constructor
      · intro h2; exact ⟨fun e => h e.symm, h2⟩
      · intro h2; exact h2.2

theorem umFind_some_mem (mp : List (K × β)) (k : K) (b : β) (h : umFind mp k = some b) :
    (k, b) ∈ mp := by
  induction mp with
  | nil => simp [umFind] at h
  | cons p t ih =>
    by_cases hp : p.1 = k
    · simp only [umFind, hp, if_true, Option.some.injEq] at h
      have : p = (k, b) := by rw [← hp, ← h]
      simp [this]
    · simp only [umFind, hp, if_false] at h
      exact List.mem_cons_of_mem _ (ih h)

theorem umFind_of_mem (mp : List (K × β)) (k : K) (b : β)
    (hnd : (mp.map Prod.fst).Nodup) (h : (k, b) ∈ mp) : umFind mp k = some b := by
  induction mp with
  | nil => simp at h
  | cons p t ih =>
    rw [List.map_cons, List.nodup_cons] at hnd
    rcases List.mem_cons.1 h with h1 | h1
    · subst h1; simp [umFind]
    · have hne : p.1 ≠ k := by
        intro e
        apply hnd.1
        rw [e]
        exact List.mem_map_of_mem Prod.fst h1
      simp only [umFind, hne, if_false]
      exact ih hnd.2 h1

theorem mem_umErase (mp : List (K × β)) (k : K) (p : K × β) :
    p ∈ umErase mp k ↔ p ∈ mp ∧ p.1 ≠ k := by
  simp [umErase, List.mem_filter]

theorem umErase_sublist (mp : List (K × β)) (k : K) : (umErase mp k).Sublist mp :=
  List.filter_sublist mp

theorem umErase_keys_nodup (mp : List (K × β)) (k : K) (hnd : (mp.map Prod.fst).Nodup) :
    ((umErase mp k).map Prod.fst).Nodup :=
  hnd.sublist ((umErase_sublist mp k).map Prod.fst)

theorem umErase_not_mem_keys (mp : List (K × β)) (k : K) :
    k ∉ (umErase mp k).map Prod.fst := by
  intro h
  rcases List.mem_map.1 h with ⟨p, hp, rfl⟩
  exact ((mem_umErase mp _ p).1 hp).2 rfl

theorem umErase_of_not_mem (mp : List (K × β)) (k : K) (h : k ∉ mp.map Prod.fst) :
    umErase mp k = mp := by
  unfold umErase
  rw [List.filter_eq_self]
  intro p hp
  simp only [ne_eq, decide_eq_true_eq]
  intro e
  exact h (e ▸ List.mem_map_of_mem Prod.fst hp)

theorem umErase_length (mp : List (K × β)) (k : K) (hnd : (mp.map Prod.fst).Nodup)
    (h : k ∈ mp.map Prod.fst) : (umErase mp k).length + 1 = mp.length := by
  induction mp with
  | nil => simp at h
  | cons p t ih =>
    rw [List.map_cons, List.nodup_cons] at hnd
    by_cases hp : p.1 = k
    · have : umErase (p :: t) k = t := by
        have h1 : umErase (p :: t) k = umErase t k := by simp [umErase, hp]
        rw [h1]
        exact umErase_of_not_mem t k (hp ▸ hnd.1)
      rw [this]; rfl
    · have h1 : umErase (p :: t) k = p :: umErase t k := by simp [umErase, hp]
      rw [h1]
      have h2 : k ∈ t.map Prod.fst := by
        rcases List.mem_cons.1 h with e | e
        · exact absurd e.symm hp
        · exact e
      simp [ih hnd.2 h2]

theorem umSet_of_not_mem (mp : List (K × β)) (k : K) (b : β) (h : k ∉ mp.map Prod.fst) :
    umSet mp k b = mp ++ [(k, b)] := by
  induction mp with
  | nil => rfl
  | cons p t ih =>
    simp only [List.map_cons, List.mem_cons, not_or] at h
    have hne : p.1 ≠ k := fun e => h.1 e.symm
    simp [umSet, hne, ih h.2]

theorem umFind_umSet (mp : List (K × β)) (k : K) (b : β) (k1 : K) :
    umFind (umSet mp k b) k1 = if k1 = k then some b else umFind mp k1 := by
  induction mp with
  | nil =>
    by_cases h : k = k1
    · simp [umSet, umFind, h]
    · simp [umSet, umFind, h, Ne.symm h]
  | cons p t ih =>
    by_cases hp : p.1 = k
    · by_cases h : k = k1
      · simp [umSet, umFind, hp, h]
      · have h2 : ¬ p.1 = k1 := by rw [hp]; exact h
        simp [umSet, umFind, hp, h, Ne.symm h, h2]
    · by_cases h : p.1 = k1
      · have h2 : ¬ k1 = k := by rw [← h]; exact hp
        simp [umSet, umFind, hp, h, h2]
      · simp only [umSet, umFind, hp, h, if_false, ih]

theorem umFind_umErase (mp : List (K × β)) (k : K) (k1 : K) :
    umFind (umErase mp k) k1 = if k1 = k then none else umFind mp k1 := by
  induction mp with
  | nil => simp [umErase, umFind]
  | cons p t ih =>
    have ih1 : umFind (List.filter (fun p => decide (p.1 ≠ k)) t) k1 =
        if k1 = k then none else umFind t k1 := ih
    by_cases hp : p.1 = k
    · have e : umErase (p :: t) k = umErase t k := by simp [umErase, hp]
      rw [e, ih]
      by_cases h : k1 = k
      · simp [h]
      · have h2 : ¬ p.1 = k1 := by rw [hp]; exact Ne.symm h
        simp [umFind, h, h2]
    · have e : umErase (p :: t) k = p :: umErase t k := by simp [umErase, hp]
      rw [e]
      by_cases h : p.1 = k1
      · have h2 : ¬ k1 = k := by rw [← h]; exact hp
        simp [umFind, h, h2]
      · simp only [umFind, h, if_false, ih]

theorem umSet_length (mp : List (K × β)) (k : K) (b : β) :
    (umSet mp k b).length = if (umFind mp k).isSome then mp.length else mp.length + 1 := by
  induction mp with
  | nil => simp [umSet, umFind]
  | cons p t ih =>
    by_cases hp : p.1 = k
    · simp [umSet, umFind, hp]
    · simp only [umSet, umFind, hp, if_false, List.length_cons, ih]
      split_ifs <;> rfl

theorem umSet_keys (mp : List (K × β)) (k : K) (b : β) :
    (umSet mp k b).map Prod.fst =
      if (umFind mp k).isSome then mp.map Prod.fst else mp.map Prod.fst ++ [k] := by
  induction mp with
  | nil => simp [umSet, umFind]
  | cons p t ih =>
    by_cases hp : p.1 = k
    · simp [umSet, umFind, hp]
    · simp only [umSet, umFind, hp, if_false, List.map_cons, ih]
      split_ifs <;> rfl

theorem umSet_keys_nodup (mp : List (K × β)) (k : K) (b : β)
    (hnd : (mp.map Prod.fst).Nodup) : ((umSet mp k b).map Prod.fst).Nodup := by
  rw [umSet_keys]
  cases hf : umFind mp k with
  | some x => simpa using hnd
  | none =>
    have := (umFind_eq_none_iff mp k).1 hf
    simp only [Option.isSome_none, Bool.false_eq_true, if_false]
    rw [List.nodup_append]
    refine ⟨hnd, by simp, ?_⟩
    intro a ha hb
    simp only [List.mem_singleton] at hb
    exact this (hb ▸ ha)

theorem umFind_isSome_iff (mp : List (K × β)) (k : K) :
    (umFind mp k).isSome = true ↔ k ∈ mp.map Prod.fst := by
  cases hf : umFind mp k with
  | none =>
    have := (umFind_eq_none_iff mp k).1 hf
    simp [this]
  | some b =>
    have := umFind_some_mem mp k b hf
    simp only [Option.isSome_some, true_iff]
    exact List.mem_map.2 ⟨_, this, rfl⟩

end UMapLemmas

section ListLemmas
variable {α : Type}

theorem listErase_sublist (l : List (Nat × α)) (it : Nat) : (listErase l it).Sublist l :=
  List.eraseP_sublist l

theorem listErase_of_not_mem (l : List (Nat × α)) (it : Nat) (h : it ∉ l.map Prod.fst) :
    listErase l it = l := by
  unfold listErase
  apply List.eraseP_of_forall_not
  intro a ha
  simp only [decide_eq_true_eq]
  intro e
  exact h (e ▸ List.mem_map_of_mem Prod.fst ha)

theorem mem_listErase (l : List (Nat × α)) (it : Nat) (hnd : (l.map Prod.fst).Nodup)
    (x : Nat × α) : x ∈ listErase l it ↔ x ∈ l ∧ x.1 ≠ it := by
  induction l with
  | nil => simp [listErase]
  | cons a t ih =>
    rw [List.map_cons, List.nodup_cons] at hnd
    by_cases ha : a.1 = it
    · have : listErase (a :: t) it = t := by simp [listErase, ha]
      rw [this]
      constructor
      · intro hx
        refine ⟨List.mem_cons_of_mem _ hx, ?_⟩
        intro e
        apply hnd.1
        rw [ha, ← e]
        exact List.mem_map_of_mem Prod.fst hx
      · rintro ⟨hx, hne⟩
        rcases List.mem_cons.1 hx with e | e
        · exact absurd (e ▸ ha) hne
        · exact e
    · have : listErase (a :: t) it = a :: listErase t it := by
        simp [listErase, List.eraseP_cons, ha]
      rw [this, List.mem_cons, List.mem_cons, ih hnd.2]
      constructor
      · rintro (e | ⟨h1, h2⟩)
        · exact ⟨Or.inl e, e ▸ ha⟩
        · exact ⟨Or.inr h1, h2⟩
      · rintro ⟨e | h1, h2⟩
        · exact Or.inl e
        · exact Or.inr ⟨h1, h2⟩

theorem listErase_length (l : List (Nat × α)) (it : Nat) (h : it ∈ l.map Prod.fst) :
    (listErase l it).length + 1 = l.length := by
  rcases List.mem_map.1 h with ⟨a, ha, rfl⟩
  unfold listErase
  rw [List.length_eraseP_of_mem ha (by simp)]
  have : 0 < l.length := List.length_pos_of_mem ha
  omega

theorem listAt_of_mem (l : List (Nat × α)) (it : Nat) (x : α)
    (hnd : (l.map Prod.fst).Nodup) (h : (it, x) ∈ l) : listAt l it = some x := by
  induction l with
  | nil => simp at h
  | cons a t ih =>
    rw [List.map_cons, List.nodup_cons] at hnd
    rcases List.mem_cons.1 h with e | e
    · subst e; simp [listAt]
    · have hne : a.1 ≠ it := by
        intro e2
        apply hnd.1
        rw [e2]
        exact List.mem_map_of_mem Prod.fst e
      have := ih hnd.2 e
      simp only [listAt, List.find?_cons, hne, decide_False] at this ⊢
      exact this

theorem popBackN_length (n : Nat) (l : List α) : popBackN l.length l = [] ∧
    (popBackN n l).length = l.length - n := by
  constructor
  · generalize hk : l.length = k
    induction k generalizing l with
    | zero => simpa [popBackN] using List.length_eq_zero.1 hk
    | succ k ih => simp only [popBackN]; apply ih; simp [hk]
  · induction n generalizing l with
    | zero => simp [popBackN]
    | succ n ih => simp only [popBackN, ih, List.length_dropLast]; omega

end ListLemmas

theorem toInt_of_lt (n : Nat) (h : n < 2 ^ 31) : toInt n = n := by
  unfold toInt
  have h1 : n % 2 ^ 32 = n := Nat.mod_eq_of_lt (by omega)
  rw [h1, if_pos h]

theorem toSizeT_of_nonneg (i : Int) (h : isInt i) (h0 : 0 ≤ i) : toSizeT i = i.toNat := by
  unfold toSizeT
  unfold isInt at h
  rw [Int.emod_eq_of_lt h0 (by omega)]

theorem toSizeT_of_neg (i : Int) (h : isInt i) (h0 : i < 0) : 2 ^ 63 ≤ toSizeT i := by
  unfold toSizeT
  unfold isInt at h
  have : i % (2:Int)^64 = i + 2^64 := by
    rw [← Int.add_emod_self]
    apply Int.emod_eq_of_lt <;> omega
  rw [this]
  omega

end Caches


namespace Caches

namespace LRUCache

variable {K V : Type} [DecidableEq K]

/-! ## LRUCache: consistency of index and list -/

theorem Consistent.length_eq {s : LRUCache K V} (h : s.Consistent) :
    s.m.length = s._cacheList.length := by
  have h1 : s.m.Nodup := List.Nodup.of_map Prod.fst h.m_nodup
  have h2 : (s._cacheList.map (fun n => (n.2.1, n.1))).Nodup := by
    apply List.Nodup.of_map Prod.snd
    rw [List.map_map]
    exact h.ids_nodup
  have h3 : s.m.Perm (s._cacheList.map (fun n => (n.2.1, n.1))) := by
    rw [List.perm_ext_iff_of_nodup h1 h2]
    rintro ⟨k, it⟩
    rw [h.m_iff, List.mem_map]
    constructor
    · rintro ⟨v, hv⟩; exact ⟨_, hv, rfl⟩
    · rintro ⟨⟨i, k1, v⟩, hn, e⟩
      simp only [Prod.mk.injEq] at e
      exact ⟨v, by rw [← e.1, ← e.2]; exact hn⟩
  simpa using h3.length_eq

theorem Consistent.find_iff {s : LRUCache K V} (h : s.Consistent) (k : K) (it : Nat) :
    umFind s.m k = some it ↔ ∃ v, (it, (k, v)) ∈ s._cacheList := by
  rw [← h.m_iff]
  exact ⟨umFind_some_mem _ _ _, umFind_of_mem _ _ _ h.m_nodup⟩

theorem Consistent.find_none_iff {s : LRUCache K V} (h : s.Consistent) (k : K) :
    umFind s.m k = none ↔ k ∉ s._cacheList.map (fun n => n.2.1) := by
  rw [umFind_eq_none_iff]
  constructor
  · intro h1 h2
    rcases List.mem_map.1 h2 with ⟨⟨it, k1, v⟩, hn, rfl⟩
    exact h1 (List.mem_map.2 ⟨(k1, it), (h.m_iff _ _).2 ⟨v, hn⟩, rfl⟩)
  · intro h1 h2
    rcases List.mem_map.1 h2 with ⟨⟨k1, it⟩, hn, rfl⟩
    rcases (h.m_iff _ _).1 hn with ⟨v, hv⟩
    exact h1 (List.mem_map.2 ⟨_, hv, rfl⟩)

theorem Consistent.node_eq_of_id {s : LRUCache K V} (h : s.Consistent)
    {a b : Nat × (K × V)} (ha : a ∈ s._cacheList) (hb : b ∈ s._cacheList)
    (e : a.1 = b.1) : a = b :=
  List.inj_on_of_nodup_map h.ids_nodup ha hb e

theorem Consistent.node_eq_of_key {s : LRUCache K V} (h : s.Consistent)
    {a b : Nat × (K × V)} (ha : a ∈ s._cacheList) (hb : b ∈ s._cacheList)
    (e : a.2.1 = b.2.1) : a = b :=
  List.inj_on_of_nodup_map h.keys_nodup ha hb e

theorem consistent_new (c : Int) : (new c : LRUCache K V).Consistent :=
  ⟨by simp [new], by simp [new], by simp [new], by simp [new], by simp [new]⟩

theorem Consistent.of_eraseNode {s : LRUCache K V} (h : s.Consistent) {it : Nat} {k : K}
    {v : V} (hn : (it, (k, v)) ∈ s._cacheList) : (s.eraseNode it k).Consistent := by
  have hsub : (listErase s._cacheList it).Sublist s._cacheList := listErase_sublist _ _
  refine ⟨h.ids_nodup.sublist (hsub.map _), fun n hn1 => h.ids_lt n (hsub.subset hn1),
    h.keys_nodup.sublist (hsub.map _), umErase_keys_nodup _ _ h.m_nodup, ?_⟩
  intro k1 it1
  show (k1, it1) ∈ umErase s.m k ↔ ∃ v1, (it1, (k1, v1)) ∈ listErase s._cacheList it
  rw [mem_umErase, h.m_iff]
  constructor
  · rintro ⟨⟨v1, hv1⟩, hne⟩
    refine ⟨v1, (mem_listErase _ _ h.ids_nodup _).2 ⟨hv1, ?_⟩⟩
    intro e
    have := h.node_eq_of_id hv1 hn e
    simp only [Prod.mk.injEq] at this
    exact hne this.2.1
  · rintro ⟨v1, hv1⟩
    rcases (mem_listErase _ _ h.ids_nodup _).1 hv1 with ⟨h1, h2⟩
    refine ⟨⟨v1, h1⟩, ?_⟩
    intro e
    have := h.node_eq_of_key h1 hn e
    simp only [Prod.mk.injEq] at this
    exact h2 this.1

theorem eraseNode_length {s : LRUCache K V} {it : Nat} {k : K}
    {v : V} (hn : (it, (k, v)) ∈ s._cacheList) :
    (s.eraseNode it k)._cacheList.length + 1 = s._cacheList.length :=
  listErase_length _ _ (List.mem_map.2 ⟨_, hn, rfl⟩)

theorem Consistent.of_pushFront {s : LRUCache K V} (h : s.Consistent) {key : K} (val : V)
    (hk : umFind s.m key = none) : (s.pushFront key val).Consistent := by
  have hk1 := (h.find_none_iff key).1 hk
  have hk2 := (umFind_eq_none_iff _ _).1 hk
  refine ⟨?_, ?_, ?_, ?_, ?_⟩
  · show ((_ :: s._cacheList).map Prod.fst).Nodup
    rw [List.map_cons, List.nodup_cons]
    refine ⟨?_, h.ids_nodup⟩
    intro hm
    rcases List.mem_map.1 hm with ⟨n, hn, e⟩
    have := h.ids_lt n hn
    simp only at e
    omega
  · intro n hn
    show n.1 < s._next + 1
    rcases List.mem_cons.1 hn with e | e
    · subst e; simp
    · have := h.ids_lt n e; omega
  · show ((_ :: s._cacheList).map (fun n => n.2.1)).Nodup
    rw [List.map_cons, List.nodup_cons]
    exact ⟨hk1, h.keys_nodup⟩
  · show ((s.m ++ [(key, s._next)]).map Prod.fst).Nodup
    rw [List.map_append, List.nodup_append]
    refine ⟨h.m_nodup, by simp, ?_⟩
    intro a ha hb
    simp only [List.map_cons, List.map_nil, List.mem_singleton] at hb
    exact hk2 (hb ▸ ha)
  · intro k1 it1
    show (k1, it1) ∈ s.m ++ [(key, s._next)] ↔ ∃ v1, (it1, (k1, v1)) ∈ _ :: s._cacheList
    rw [List.mem_append, h.m_iff, List.mem_singleton, Prod.mk.injEq]
    constructor
    · rintro (⟨v1, hv1⟩ | ⟨e1, e2⟩)
      · exact ⟨v1, List.mem_cons_of_mem _ hv1⟩
      · subst e1 e2; exact ⟨val, List.mem_cons_self _ _⟩
    · rintro ⟨v1, hv1⟩
      rcases List.mem_cons.1 hv1 with e | e
      · simp only [Prod.mk.injEq] at e
        exact Or.inr ⟨e.2.1, e.1⟩
      · exact Or.inl ⟨v1, e⟩

/-- Unlinking the last node is the same as popping the back of the list. -/
theorem listErase_last {α : Type} (rest : List (Nat × α)) (x : Nat × α)
    (hnd : ((rest ++ [x]).map Prod.fst).Nodup) : listErase (rest ++ [x]) x.1 = rest := by
  unfold listErase
  rw [List.eraseP_append_right]
  · simp
  · intro b hb
    simp only [decide_eq_true_eq]
    intro e
    rw [List.map_append, List.nodup_append] at hnd
    exact hnd.2.2 (List.mem_map_of_mem Prod.fst hb) (by simp [e])

end LRUCache

end Caches


namespace Caches

namespace LRUCache

variable {K V : Type} [DecidableEq K]

/-! ## LRUCache: the methods on consistent states -/

theorem dropKey_consistent {s : LRUCache K V} (h : s.Consistent) (key : K) :
    (s.dropKey key).Consistent := by
  unfold dropKey
  cases hf : umFind s.m key with
  | none => exact h
  | some it =>
    rcases (h.find_iff key it).1 hf with ⟨v, hv⟩
    exact h.of_eraseNode hv

theorem dropKey_find (s : LRUCache K V) (key : K) : umFind (s.dropKey key).m key = none := by
  unfold dropKey
  cases hf : umFind s.m key with
  | none => exact hf
  | some it => exact (umFind_eq_none_iff _ _).2 (umErase_not_mem_keys _ _)

theorem dropKey_maxSize (s : LRUCache K V) (key : K) :
    (s.dropKey key)._maxSize = s._maxSize := by
  unfold dropKey
  cases umFind s.m key <;> rfl

theorem dropKey_length_le (s : LRUCache K V) (key : K) :
    (s.dropKey key)._cacheList.length ≤ s._cacheList.length := by
  unfold dropKey
  cases umFind s.m key with
  | none => exact le_refl _
  | some it => exact (listErase_sublist _ _).length_le

theorem dropKey_sublist (s : LRUCache K V) (key : K) :
    (s.dropKey key)._cacheList.Sublist s._cacheList := by
  unfold dropKey
  cases umFind s.m key with
  | none => exact List.Sublist.refl _
  | some it => exact listErase_sublist _ _

theorem popBack_snoc {s : LRUCache K V} (h : s.Consistent) (rest : List (Nat × (K × V)))
    (x : Nat × (K × V)) (hl : s._cacheList = rest ++ [x]) :
    s.popBack = s.eraseNode x.1 x.2.1 ∧ s.popBack._cacheList = rest := by
  have h1 : s.popBack =
      { s with m := umErase s.m x.2.1, _cacheList := s._cacheList.dropLast } := by
    unfold popBack; rw [hl]; simp
  have h2 : listErase s._cacheList x.1 = rest := by
    rw [hl]; apply listErase_last; rw [← hl]; exact h.ids_nodup
  have h3 : s._cacheList.dropLast = rest := by rw [hl]; simp
  constructor
  · rw [h1]; unfold eraseNode; rw [h2, h3]
  · rw [h1]; exact h3

theorem popBack_consistent {s : LRUCache K V} (h : s.Consistent) : s.popBack.Consistent := by
  rcases List.eq_nil_or_concat s._cacheList with hl | ⟨rest, x, hl⟩
  · have : s.popBack = s := by unfold popBack; rw [hl]; rfl
    rw [this]; exact h
  · rw [List.concat_eq_append] at hl
    rw [(popBack_snoc h rest x hl).1]
    exact h.of_eraseNode (v := x.2.2) (by rw [hl]; simp)

theorem popBack_length (s : LRUCache K V) :
    s.popBack._cacheList.length = s._cacheList.length - 1 := by
  rcases List.eq_nil_or_concat s._cacheList with hl | ⟨rest, x, hl⟩
  · have : s.popBack = s := by unfold popBack; rw [hl]; rfl
    rw [this, hl]; rfl
  · have h1 : s.popBack._cacheList = s._cacheList.dropLast := by
      unfold popBack; rw [hl]; simp
    rw [h1]; simp

theorem popBack_maxSize (s : LRUCache K V) : s.popBack._maxSize = s._maxSize := by
  unfold popBack
  cases s._cacheList.getLast? <;> rfl

theorem popBack_next (s : LRUCache K V) : s.popBack._next = s._next := by
  unfold popBack
  cases s._cacheList.getLast? <;> rfl

theorem popBack_list (s : LRUCache K V) : s.popBack._cacheList = s._cacheList.dropLast := by
  rcases List.eq_nil_or_concat s._cacheList with hl | ⟨rest, x, hl⟩
  · have : s.popBack = s := by unfold popBack; rw [hl]; rfl
    rw [this, hl]; rfl
  · unfold popBack; rw [hl]; simp

/-- On a consistent state `produce` unlinks the old node of the key, links the new node
at the front and, when the index then exceeds the capacity, pops the back. -/
theorem produce_eq {s : LRUCache K V} (h : s.Consistent) (key : K) (val : V) :
    s.produce key val =
      if ((s.dropKey key).pushFront key val).m.length > toSizeT s._maxSize
      then ((s.dropKey key).pushFront key val).popBack
      else (s.dropKey key).pushFront key val := by
  have hne : ∀ it, umFind s.m key = some it → it ≠ s._next := by
    intro it hf e
    rcases (h.find_iff key it).1 hf with ⟨v, hv⟩
    have := h.ids_lt _ hv
    simp only at this
    omega
  unfold produce dropKey
  cases hf : umFind s.m key with
  | none =>
    have hm : umSet s.m key s._next = s.m ++ [(key, s._next)] :=
      umSet_of_not_mem _ _ _ ((umFind_eq_none_iff _ _).1 hf)
    simp only [hm, pushFront, popBack]
  | some it =>
    have hm : umSet (umErase s.m key) key s._next = umErase s.m key ++ [(key, s._next)] :=
      umSet_of_not_mem _ _ _ (umErase_not_mem_keys _ _)
    have hl : listErase ((s._next, (key, val)) :: s._cacheList) it =
        (s._next, (key, val)) :: listErase s._cacheList it := by
      have := hne it hf
      simp [listErase, List.eraseP_cons, Ne.symm this]
    simp only [hm, hl, pushFront, popBack, eraseNode]

theorem lru_produce_good {s : LRUCache K V} (h : s.Good) (key : K) (val : V) :
    (s.produce key val).Good := by
  have hc1 := dropKey_consistent h.1 key
  have hc2 := hc1.of_pushFront val (dropKey_find s key)
  have hlen : ((s.dropKey key).pushFront key val)._cacheList.length ≤
      s._cacheList.length + 1 := by
    show (s.dropKey key)._cacheList.length + 1 ≤ _
    have := dropKey_length_le s key
    omega
  have hms : ((s.dropKey key).pushFront key val)._maxSize = s._maxSize :=
    dropKey_maxSize s key
  rw [produce_eq h.1]
  split_ifs with hc
  · refine ⟨popBack_consistent hc2, ?_⟩
    rw [popBack_length, popBack_maxSize, hms]
    have := h.2
    omega
  · refine ⟨hc2, ?_⟩
    rw [hms]
    rw [hc2.length_eq] at hc
    omega

theorem lru_produce_maxSize (s : LRUCache K V) (key : K) (val : V) :
    (s.produce key val)._maxSize = s._maxSize := by
  unfold produce
  dsimp only
  split_ifs
  · split <;> rfl
  · rfl

theorem lru_consumeKey_eq [Inhabited V] {s : LRUCache K V} (h : s.Consistent) (key : K) :
    (∀ it v, (it, (key, v)) ∈ s._cacheList → s.consumeKey key = (v, s.eraseNode it key)) ∧
    (umFind s.m key = none → s.consumeKey key = (default, s)) := by
  constructor
  · intro it v hv
    have hf := (h.find_iff key it).2 ⟨v, hv⟩
    have hpos : s.m.length > 0 := by
      rw [h.length_eq]; exact List.length_pos_of_mem hv
    have hat := listAt_of_mem _ _ _ h.ids_nodup hv
    unfold consumeKey
    rw [if_pos hpos, hf]
    simp only [hat]
    rfl
  · intro hf
    unfold consumeKey
    rw [hf]
    simp

theorem lru_consumeKey_good [Inhabited V] {s : LRUCache K V} (h : s.Good) (key : K) :
    (s.consumeKey key).2.Good := by
  cases hf : umFind s.m key with
  | none => rw [(lru_consumeKey_eq h.1 key).2 hf]; exact h
  | some it =>
    rcases (h.1.find_iff key it).1 hf with ⟨v, hv⟩
    rw [(lru_consumeKey_eq h.1 key).1 it v hv]
    refine ⟨h.1.of_eraseNode hv, ?_⟩
    have := eraseNode_length hv
    have := h.2
    show (s.eraseNode it key)._cacheList.length ≤ toSizeT s._maxSize
    omega

theorem lru_consume_eq [Inhabited K] [Inhabited V] {s : LRUCache K V} (h : s.Consistent) :
    (∀ rest x, s._cacheList = rest ++ [x] → s.consume = (x.2, s.popBack)) ∧
    (s._cacheList = [] → s.consume = (default, s)) := by
  constructor
  · intro rest x hl
    have hpos : s.m.length > 0 := by rw [h.length_eq, hl]; simp
    unfold consume popBack
    rw [if_pos hpos, hl]
    simp
  · intro hl
    have : ¬ s.m.length > 0 := by rw [h.length_eq, hl]; simp
    unfold consume
    rw [if_neg this]

theorem lru_consume_state [Inhabited K] [Inhabited V] {s : LRUCache K V} (h : s.Consistent) :
    s.consume.2 = s.popBack := by
  rcases List.eq_nil_or_concat s._cacheList with hl | ⟨rest, x, hl⟩
  · rw [(lru_consume_eq h).2 hl]
    unfold popBack; rw [hl]; rfl
  · rw [List.concat_eq_append] at hl
    rw [(lru_consume_eq h).1 rest x hl]

theorem popBack_good {s : LRUCache K V} (h : s.Good) : s.popBack.Good := by
  refine ⟨popBack_consistent h.1, ?_⟩
  rw [popBack_length, popBack_maxSize]
  have := h.2
  omega

theorem lru_consumeLoop_state (n : Nat) (s : LRUCache K V) (res : List (K × V)) :
    (consumeLoop n s res).2 = (popBack)^[n] s := by
  induction n generalizing s res with
  | zero => rfl
  | succ n ih =>
    rw [Function.iterate_succ_apply]
    cases hl : s._cacheList.getLast? with
    | none =>
      have hp : s.popBack = s := by unfold popBack; rw [hl]
      have : ∀ j, (popBack)^[j] s = s := by
        intro j
        induction j with
        | zero => rfl
        | succ j ihj => rw [Function.iterate_succ_apply, hp, ihj]
      rw [hp, this]
      unfold consumeLoop
      rw [hl]
    | some content =>
      have hp : s.popBack =
          { s with m := umErase s.m content.2.1, _cacheList := s._cacheList.dropLast } := by
        unfold popBack; rw [hl]
      rw [hp, ← ih]
      conv_lhs => unfold consumeLoop
      rw [hl]

theorem lru_consumeN_eq (s : LRUCache K V) (num : Int) :
    ∃ n, s.consumeN num = consumeLoop n s [] := ⟨_, rfl⟩

theorem iterate_popBack_good (n : Nat) {s : LRUCache K V} (h : s.Good) :
    ((popBack)^[n] s).Good := by
  induction n generalizing s with
  | zero => exact h
  | succ n ih => rw [Function.iterate_succ_apply]; exact ih (popBack_good h)

theorem iterate_popBack_maxSize (n : Nat) (s : LRUCache K V) :
    ((popBack)^[n] s)._maxSize = s._maxSize := by
  induction n generalizing s with
  | zero => rfl
  | succ n ih => rw [Function.iterate_succ_apply, ih, popBack_maxSize]

theorem lru_clear_good {s : LRUCache K V} (hlt : s._cacheList.length < 2 ^ 31) :
    s.clear = { s with _cacheList := [], m := [] } ∧ s.clear.Good := by
  have h1 : s.clear = { s with _cacheList := [], m := [] } := by
    unfold clear
    rw [toInt_of_lt _ hlt, Int.toNat_natCast, (popBackN_length 0 s._cacheList).1]
  refine ⟨h1, ?_⟩
  rw [h1]
  exact ⟨⟨by simp, by simp, by simp, by simp, by simp⟩, Nat.zero_le _⟩

end LRUCache

end Caches


namespace Caches

namespace LRUCache

variable {K V : Type} [DecidableEq K]

theorem lru_step_good [Inhabited K] [Inhabited V] {s : LRUCache K V} (h : s.Good)
    (hlt : s._cacheList.length < 2 ^ 31) (op : Op K V) : (s.step op).Good := by
  cases op with
  | produce key val => exact lru_produce_good h key val
  | consumeKey key => exact lru_consumeKey_good h key
  | consume => show s.consume.2.Good; rw [lru_consume_state h.1]; exact popBack_good h
  | consumeN num =>
    obtain ⟨n, hn⟩ := lru_consumeN_eq s num
    show (s.consumeN num).2.Good
    rw [hn, lru_consumeLoop_state]
    exact iterate_popBack_good n h
  | clear => exact (lru_clear_good hlt).2

theorem lru_step_maxSize [Inhabited K] [Inhabited V] (s : LRUCache K V) (op : Op K V) :
    (s.step op)._maxSize = s._maxSize := by
  cases op with
  | produce key val => exact lru_produce_maxSize s key val
  | consumeKey key =>
    show (s.consumeKey key).2._maxSize = _
    unfold consumeKey
    by_cases h : s.m.length > 0
    · rw [if_pos h]
      cases umFind s.m key with
      | none => rfl
      | some it =>
        dsimp only
        cases listAt s._cacheList it with
        | none => rfl
        | some kv => rfl
    · rw [if_neg h]
  | consume =>
    show s.consume.2._maxSize = _
    unfold consume
    by_cases h : s.m.length > 0
    · rw [if_pos h]
      cases s._cacheList.getLast? with
      | none => rfl
      | some it => rfl
    · rw [if_neg h]
  | consumeN num =>
    obtain ⟨n, hn⟩ := lru_consumeN_eq s num
    show (s.consumeN num).2._maxSize = _
    rw [hn, lru_consumeLoop_state]
    exact iterate_popBack_maxSize n s
  | clear => rfl

theorem lru_run_maxSize [Inhabited K] [Inhabited V] (c : Int) (h : List (Op K V)) :
    (run c h)._maxSize = c := by
  induction h with
  | nil => rfl
  | cons op h ih => show ((run c h).step op)._maxSize = c; rw [lru_step_maxSize, ih]

theorem run_good_of_nonneg [Inhabited K] [Inhabited V] (c : Int) (hc : isInt c)
    (h0 : 0 ≤ c) (h : List (Op K V)) :
    (run c h).Good ∧ (run c h)._cacheList.length ≤ c.toNat ∧
      (run c h)._cacheList.length < 2 ^ 31 := by
  have key : ∀ s : LRUCache K V, s.Good → s._maxSize = c →
      s._cacheList.length ≤ c.toNat ∧ s._cacheList.length < 2 ^ 31 := by
    intro s hs hm
    have h1 := hs.2
    rw [hm, toSizeT_of_nonneg c hc h0] at h1
    have h2 : c.toNat < 2 ^ 31 := by
      unfold isInt at hc
      omega
    exact ⟨h1, by omega⟩
  induction h with
  | nil =>
    have hg : (new c : LRUCache K V).Good := ⟨consistent_new c, by simp [new]⟩
    exact ⟨hg, key _ hg rfl⟩
  | cons op h ih =>
    have hg : ((run c h).step op).Good := lru_step_good ih.1 ih.2.2 op
    exact ⟨hg, key _ hg (lru_run_maxSize c (op :: h))⟩

theorem reachable_good [Inhabited K] [Inhabited V] (c : Int) (h : List (Op K V))
    (hr : Reachable c h) : (run c h).Good ∧ (run c h)._cacheList.length < 2 ^ 31 := by
  induction h with
  | nil => exact ⟨⟨consistent_new c, by simp [run, new]⟩, by simp [run, new]⟩
  | cons op h ih =>
    have ih1 := ih hr.1
    exact ⟨lru_step_good ih1.1 ih1.2 op, hr.2.2⟩

/-- With a capacity `0 ≤ c` every history of calls with `int` arguments is reachable. -/
theorem reachable_of_nonneg [Inhabited K] [Inhabited V] (c : Int) (hc : isInt c)
    (h0 : 0 ≤ c) (h : List (Op K V)) (hv : ∀ op ∈ h, op.valid) : Reachable c h := by
  induction h with
  | nil => exact hc
  | cons op h ih =>
    exact ⟨ih (fun o ho => hv o (List.mem_cons_of_mem _ ho)), hv op (List.mem_cons_self _ _),
      (run_good_of_nonneg c hc h0 (op :: h)).2.2⟩

end LRUCache

end Caches


namespace Caches

namespace LRUCache

variable {K V : Type} [DecidableEq K]

/-! ## LRUCache: states and their histories -/

theorem lastProduce_lt (h : List (Op K V)) (k : K) (t : Nat) (v : V)
    (e : lastProduce h k = some (t, v)) : t < h.length := by
  induction h with
  | nil => simp [lastProduce] at e
  | cons op h ih =>
    cases op with
    | produce k1 v1 =>
      by_cases hk : k1 = k
      · simp only [lastProduce, hk, if_true, Option.some.injEq, Prod.mk.injEq] at e
        rw [← e.1]; simp
      · simp only [lastProduce, hk, if_false] at e
        have := ih e
        simp; omega
    | consumeKey k1 => have := ih (by simpa [lastProduce] using e); simp; omega
    | consume => have := ih (by simpa [lastProduce] using e); simp; omega
    | consumeN n => have := ih (by simpa [lastProduce] using e); simp; omega
    | clear => have := ih (by simpa [lastProduce] using e); simp; omega

theorem lastProduce_of_not_produce (op : Op K V) (h : List (Op K V)) (k : K)
    (hop : ∀ k1 v1, op ≠ .produce k1 v1) : lastProduce (op :: h) k = lastProduce h k := by
  cases op with
  | produce k1 v1 => exact absurd rfl (hop k1 v1)
  | consumeKey k1 => rfl
  | consume => rfl
  | consumeN n => rfl
  | clear => rfl

theorem tracked_of_sublist {h : List (Op K V)} {s t : LRUCache K V} (op : Op K V)
    (hop : ∀ k1 v1, op ≠ .produce k1 v1) (ht : Tracked h s)
    (hsub : t._cacheList.Sublist s._cacheList) : Tracked (op :: h) t := by
  have e : ∀ k, lastProduce (op :: h) k = lastProduce h k :=
    fun k => lastProduce_of_not_produce op h k hop
  constructor
  · intro n hn
    rw [e]
    exact ht.1 n (hsub.subset hn)
  · have : (fun a b : Nat × (K × V) =>
        produceTime (op :: h) b.2.1 < produceTime (op :: h) a.2.1) =
        (fun a b => produceTime h b.2.1 < produceTime h a.2.1) := by
      funext a b
      unfold produceTime
      rw [e, e]
    rw [this]
    exact ht.2.sublist hsub

theorem iterate_popBack_sublist (n : Nat) (s : LRUCache K V) :
    ((popBack)^[n] s)._cacheList.Sublist s._cacheList := by
  induction n generalizing s with
  | zero => exact List.Sublist.refl _
  | succ n ih =>
    rw [Function.iterate_succ_apply]
    refine (ih s.popBack).trans ?_
    rw [popBack_list]
    exact List.dropLast_sublist _

theorem popBackN_sublist {α : Type} (n : Nat) (l : List α) : (popBackN n l).Sublist l := by
  induction n generalizing l with
  | zero => exact List.Sublist.refl _
  | succ n ih => exact (ih l.dropLast).trans (List.dropLast_sublist _)

theorem step_sublist [Inhabited K] [Inhabited V] (s : LRUCache K V) (op : Op K V)
    (hop : ∀ k1 v1, op ≠ .produce k1 v1) :
    (s.step op)._cacheList.Sublist s._cacheList := by
  cases op with
  | produce k1 v1 => exact absurd rfl (hop k1 v1)
  | consumeKey key =>
    show (s.consumeKey key).2._cacheList.Sublist _
    unfold consumeKey
    by_cases h : s.m.length > 0
    · rw [if_pos h]
      cases umFind s.m key with
      | none => exact List.Sublist.refl _
      | some it =>
        dsimp only
        cases listAt s._cacheList it with
        | none => exact List.Sublist.refl _
        | some kv => exact listErase_sublist _ _
    · rw [if_neg h]
  | consume =>
    show s.consume.2._cacheList.Sublist _
    unfold consume
    by_cases h : s.m.length > 0
    · rw [if_pos h]
      cases s._cacheList.getLast? with
      | none => exact List.Sublist.refl _
      | some it => exact List.dropLast_sublist _
    · rw [if_neg h]
  | consumeN num =>
    obtain ⟨n, hn⟩ := lru_consumeN_eq s num
    show (s.consumeN num).2._cacheList.Sublist _
    rw [hn, lru_consumeLoop_state]
    exact iterate_popBack_sublist n s
  | clear => exact popBackN_sublist _ _

theorem produce_tracked {h : List (Op K V)} {s : LRUCache K V} (hs : s.Consistent)
    (ht : Tracked h s) (key : K) (val : V) :
    Tracked (.produce key val :: h) (s.produce key val) := by
  have hd := dropKey_consistent hs key
  have hnone := (hd.find_none_iff key).1 (dropKey_find s key)
  have hne : ∀ n ∈ (s.dropKey key)._cacheList, n.2.1 ≠ key := by
    intro n hn e
    exact hnone (List.mem_map.2 ⟨n, hn, e⟩)
  have e : ∀ k, k ≠ key → lastProduce (.produce key val :: h) k = lastProduce h k := by
    intro k hk
    simp [lastProduce, Ne.symm hk]
  have hnew : lastProduce (.produce key val :: h) key = some (h.length, val) := by
    simp [lastProduce]
  have hT : Tracked (.produce key val :: h) ((s.dropKey key).pushFront key val) := by
    constructor
    · intro n hn
      rcases List.mem_cons.1 hn with e1 | e1
      · subst e1; exact ⟨_, hnew⟩
      · rw [e _ (hne n e1)]
        exact ht.1 n ((dropKey_sublist s key).subset e1)
    · show ((_ :: (s.dropKey key)._cacheList)).Pairwise _
      rw [List.pairwise_cons]
      constructor
      · intro n hn
        obtain ⟨t, ht1⟩ := ht.1 n ((dropKey_sublist s key).subset hn)
        have hlt := lastProduce_lt h _ _ _ ht1
        unfold produceTime
        rw [hnew, e _ (hne n hn), ht1]
        exact hlt
      · have hp := ht.2.sublist (dropKey_sublist s key)
        refine hp.imp_of_mem ?_
        intro a b ha hb hab
        unfold produceTime at hab ⊢
        rw [e _ (hne a ha), e _ (hne b hb)]
        exact hab
  rw [produce_eq hs]
  split_ifs with hc
  · constructor
    · intro n hn
      rw [popBack_list] at hn
      exact hT.1 n ((List.dropLast_sublist _).subset hn)
    · rw [popBack_list]
      exact hT.2.sublist (List.dropLast_sublist _)
  · exact hT

theorem step_tracked [Inhabited K] [Inhabited V] {h : List (Op K V)} {s : LRUCache K V}
    (hs : s.Consistent) (ht : Tracked h s) (op : Op K V) :
    Tracked (op :: h) (s.step op) := by
  by_cases hop : ∀ k1 v1, op ≠ .produce k1 v1
  · exact tracked_of_sublist op hop ht (step_sublist s op hop)
  · push_neg at hop
    obtain ⟨k1, v1, rfl⟩ := hop
    exact produce_tracked hs ht k1 v1

theorem reachable_tracked [Inhabited K] [Inhabited V] (c : Int) (h : List (Op K V))
    (hr : Reachable c h) : Tracked h (run c h) := by
  induction h with
  | nil => exact ⟨by simp [run, new], by simp [run, new]⟩
  | cons op h ih =>
    exact step_tracked (reachable_good c h hr.1).1.1 (ih hr.1) op

theorem run_tracked_of_nonneg [Inhabited K] [Inhabited V] (c : Int) (hc : isInt c)
    (h0 : 0 ≤ c) (h : List (Op K V)) : Tracked h (run c h) := by
  induction h with
  | nil => exact ⟨by simp [run, new], by simp [run, new]⟩
  | cons op h ih =>
    exact step_tracked (run_good_of_nonneg c hc h0 h).1.1 ih op

end LRUCache

end Caches


namespace Caches

namespace LRUCache

variable {K V : Type} [DecidableEq K]

/-! ## LRUCache: eviction -/

theorem Consistent.contains_iff {s : LRUCache K V} (h : s.Consistent) (k : K) :
    s.contains k ↔ k ∈ s.entries.map Prod.fst := by
  unfold contains entries
  rw [List.map_map]
  have h1 := h.find_none_iff k
  constructor
  · intro hc
    by_contra hn
    rw [h1.2 hn] at hc
    simp at hc
  · intro hm
    cases hf : umFind s.m k with
    | none => exact absurd hm (h1.1 hf)
    | some it => rfl

theorem lru_size_eq_length {s : LRUCache K V} (h : s.Consistent)
    (hlt : s._cacheList.length < 2 ^ 31) : s.size = (s._cacheList.length : Int) := by
  unfold size
  rw [h.length_eq, toInt_of_lt _ hlt]

/-- Claim C1.  In a cache of capacity `c ≥ 1` that is full (`size() == c`), `produce`
of a key that is not in the cache removes exactly the least recently used entry `lru`,
the one `consume()` would have returned and the one whose latest `produce` is older than
that of every other entry; the other entries `rest` keep their values and their recency
order, the new entry is the most recently used one, and `size()` is still `c`. -/
theorem C1_lru_eviction [Inhabited K] [Inhabited V] (c : Int) (h : List (Op K V))
    (key : K) (val : V) (hc : isInt c) (h1 : 1 ≤ c)
    (hfull : (run c h).size = c) (hnew : ¬ (run c h).contains key) :
    ∃ rest lru, (run c h).entries = rest ++ [lru] ∧
      (run c h).consume.1 = lru ∧
      ((run c h).produce key val).entries = (key, val) :: rest ∧
      ((run c h).produce key val).size = c ∧
      (∀ k, ((run c h).produce key val).contains k ↔ k = key ∨ k ∈ rest.map Prod.fst) ∧
      lru.1 ≠ key ∧ lru.1 ∉ rest.map Prod.fst ∧
      ∃ t, lastProduce h lru.1 = some (t, lru.2) ∧
        ∀ e ∈ rest, ∃ t1, lastProduce h e.1 = some (t1, e.2) ∧ t < t1 := by
  obtain ⟨hg, hle, hlt⟩ := run_good_of_nonneg c hc (by omega) h
  have ht := run_tracked_of_nonneg c hc (by omega) h
  have hms := lru_run_maxSize c h
  generalize run c h = s at *
  have hsz := lru_size_eq_length hg.1 hlt
  rw [hsz] at hfull
  have hpos : s._cacheList ≠ [] := by
    intro e
    rw [e] at hfull
    simp at hfull
    omega
  rcases List.eq_nil_or_concat s._cacheList with hl | ⟨rest0, x, hl⟩
  · exact absurd hl hpos
  rw [List.concat_eq_append] at hl
  have hfind : umFind s.m key = none := by
    unfold contains at hnew
    cases hf : umFind s.m key with
    | none => rfl
    | some it => rw [hf] at hnew; simp at hnew
  have hdrop : s.dropKey key = s := by unfold dropKey; rw [hfind]
  have hcp : (s.pushFront key val).Consistent := hg.1.of_pushFront val hfind
  have hcond : (s.pushFront key val).m.length > toSizeT s._maxSize := by
    rw [hcp.length_eq, hms, toSizeT_of_nonneg c hc (by omega)]
    show (s._cacheList.length + 1) > c.toNat
    omega
  have hprod : s.produce key val = (s.pushFront key val).popBack := by
    rw [produce_eq hg.1, hdrop, if_pos hcond]
  have hlist : (s.produce key val)._cacheList = (s._next, (key, val)) :: rest0 := by
    rw [hprod, popBack_list]
    show ((s._next, (key, val)) :: s._cacheList).dropLast = _
    rw [hl, ← List.cons_append, List.dropLast_concat]
  have hcons : (s.produce key val).Consistent := by
    rw [hprod]; exact popBack_consistent hcp
  have hkeys := hg.1.keys_nodup
  rw [hl, List.map_append, List.nodup_append] at hkeys
  refine ⟨rest0.map Prod.snd, x.2, ?_, ?_, ?_, ?_, ?_, ?_, ?_, ?_⟩
  · unfold entries; rw [hl]; simp
  · rw [(lru_consume_eq hg.1).1 rest0 x hl]
  · unfold entries; rw [hlist]; rfl
  · rw [lru_size_eq_length hcons (by rw [hlist]; rw [hl] at hlt; simp at hlt ⊢; omega), hlist]
    rw [hl] at hfull
    simp at hfull ⊢
    omega
  · intro k
    rw [hcons.contains_iff]
    unfold entries
    rw [hlist]
    simp
  · intro e
    have hx : x.2.1 ∈ s._cacheList.map (fun n => n.2.1) := by rw [hl]; simp
    exact (hg.1.find_none_iff key).1 hfind (e ▸ hx)
  · intro hm
    rw [List.map_map] at hm
    exact hkeys.2.2 hm (by simp)
  · obtain ⟨t, ht1⟩ := ht.1 x (by rw [hl]; simp)
    have hpw := ht.2
    rw [hl, List.pairwise_append] at hpw
    refine ⟨t, ht1, ?_⟩
    intro e he
    obtain ⟨n, hn, rfl⟩ := List.mem_map.1 he
    obtain ⟨t1, ht2⟩ := ht.1 n (by rw [hl]; simp [hn])
    refine ⟨t1, ht2, ?_⟩
    have := hpw.2.2 n hn x (by simp)
    unfold produceTime at this
    rw [ht1, ht2] at this
    exact this

/-- Witness of C1: capacity 2, `produce(1,"a")`, `produce(2,"b")`, then `produce(3,"c")`
evicts key 1; afterwards `size() == 2`, key 1 is absent, `consume(2) == "b"` and
`consume(3) == "c"`. -/
theorem C1_lru_eviction_witness :
    (∃ rest lru, (run 2 [Op.produce 2 "b", Op.produce 1 "a"]).entries = rest ++ [lru] ∧
      (run 2 [Op.produce 2 "b", Op.produce 1 "a"]).consume.1 = lru ∧
      ((run 2 [Op.produce 2 "b", Op.produce 1 "a"]).produce 3 "c").entries
        = (3, "c") :: rest ∧
      ((run 2 [Op.produce 2 "b", Op.produce 1 "a"]).produce 3 "c").size = 2 ∧
      (∀ k, ((run 2 [Op.produce 2 "b", Op.produce 1 "a"]).produce 3 "c").contains k ↔
        k = 3 ∨ k ∈ rest.map Prod.fst) ∧
      lru.1 ≠ 3 ∧ lru.1 ∉ rest.map Prod.fst ∧
      ∃ t, lastProduce [Op.produce 2 "b", Op.produce 1 "a"] lru.1 = some (t, lru.2) ∧
        ∀ e ∈ rest, ∃ t1,
          lastProduce [Op.produce 2 "b", Op.produce 1 "a"] e.1 = some (t1, e.2) ∧ t < t1) ∧
    (run 2 [Op.produce 3 "c", Op.produce 2 "b", Op.produce 1 "a"]).size = 2 ∧
    ¬ (run 2 [Op.produce 3 "c", Op.produce 2 "b", Op.produce 1 "a"]).contains 1 ∧
    ((run 2 [Op.produce 3 "c", Op.produce 2 "b", Op.produce 1 "a"]).consumeKey 2).1 = "b" ∧
    ((run 2 [Op.produce 3 "c", Op.produce 2 "b", Op.produce 1 "a"]).consumeKey 3).1 = "c" :=
  ⟨C1_lru_eviction 2 [Op.produce 2 "b", Op.produce 1 "a"] 3 "c" (by decide) (by decide)
    (by decide) (by decide), by decide, by decide, by decide, by decide⟩

/-! ## LRUCache: consume -/

/-- Claim C6.  In every reachable non-empty state, `consume()` removes and returns the
entry `lru` whose latest `produce` is older than that of every other live entry,
`size()` drops by one and the other entries `rest` are unchanged; on the empty cache
it returns the default-constructed pair and leaves the state as it is. -/
theorem C6_lru_consume [Inhabited K] [Inhabited V] (c : Int) (h : List (Op K V))
    (hr : Reachable c h) :
    ((run c h).size ≠ 0 → ∃ rest lru t, (run c h).entries = rest ++ [lru] ∧
      (run c h).consume.1 = lru ∧
      (run c h).consume.2.entries = rest ∧
      (run c h).consume.2.size = (run c h).size - 1 ∧
      lastProduce h lru.1 = some (t, lru.2) ∧
      ∀ e ∈ rest, ∃ t1, lastProduce h e.1 = some (t1, e.2) ∧ t < t1) ∧
    ((run c h).size = 0 → (run c h).consume = (default, run c h) ∧
      (run c h).entries = []) := by
  obtain ⟨hg, hlt⟩ := reachable_good c h hr
  have ht := reachable_tracked c h hr
  generalize run c h = s at *
  have hsz := lru_size_eq_length hg.1 hlt
  rcases List.eq_nil_or_concat s._cacheList with hl | ⟨rest0, x, hl⟩
  · constructor
    · intro hne
      rw [hsz, hl] at hne
      simp at hne
    · intro _
      exact ⟨(lru_consume_eq hg.1).2 hl, by unfold entries; rw [hl]; rfl⟩
  · rw [List.concat_eq_append] at hl
    constructor
    · intro _
      have hce := (lru_consume_eq hg.1).1 rest0 x hl
      have hpb := popBack_snoc hg.1 rest0 x hl
      obtain ⟨t, ht1⟩ := ht.1 x (by rw [hl]; simp)
      have hpw := ht.2
      rw [hl, List.pairwise_append] at hpw
      refine ⟨rest0.map Prod.snd, x.2, t, ?_, by rw [hce], ?_, ?_, ht1, ?_⟩
      · unfold entries; rw [hl]; simp
      · rw [hce]; unfold entries; rw [hpb.2]
      · have hlt2 : rest0.length < 2 ^ 31 := by
          rw [hl] at hlt; simp at hlt; omega
        rw [hce, lru_size_eq_length (popBack_consistent hg.1) (by rw [hpb.2]; exact hlt2),
          hsz, hpb.2, hl]
        simp
      · intro e he
        obtain ⟨n, hn, rfl⟩ := List.mem_map.1 he
        obtain ⟨t1, ht2⟩ := ht.1 n (by rw [hl]; simp [hn])
        refine ⟨t1, ht2, ?_⟩
        have := hpw.2.2 n hn x (by simp)
        unfold produceTime at this
        rw [ht1, ht2] at this
        exact this
    · intro h0
      rw [hsz, hl] at h0
      simp at h0
      omega

/-- Witness of C6: after `produce(1,"a")`, `produce(2,"b")`, `produce(1,"c")` the call
`consume()` returns `(2,"b")`. -/
theorem C6_lru_consume_witness :
    (run 5 [Op.produce 1 "c", Op.produce 2 "b", Op.produce 1 "a"]).consume.1 = (2, "b") ∧
    (run 5 [Op.produce 1 "c", Op.produce 2 "b", Op.produce 1 "a"]).consume.2.entries
      = [(1, "c")] ∧
    (run 5 ([] : List (Op Nat String))).consume = (default, run 5 []) := by
  have hw := C6_lru_consume 5 [Op.produce 1 "c", Op.produce 2 "b", Op.produce 1 "a"]
    (by decide)
  have he := (C6_lru_consume 5 ([] : List (Op Nat String)) (by decide)).2 (by decide)
  obtain ⟨rest, lru, t, h1, h2, h3, -⟩ := hw.1 (by decide)
  exact ⟨by decide, by decide, he.1⟩

end LRUCache

end Caches


namespace Caches

namespace FIFOCache

variable {T : Type}

/-! ## FIFOCache -/

theorem fifo_produce_maxSize (s : FIFOCache T) (t : T) : (s.produce t)._maxSize = s._maxSize := by
  unfold produce
  split_ifs <;> rfl

theorem produceAll_maxSize (s : FIFOCache T) (vs : List T) :
    (s.produceAll vs)._maxSize = s._maxSize := by
  unfold produceAll
  induction vs generalizing s with
  | nil => rfl
  | cons v vs ih => rw [List.foldl_cons, ih, fifo_produce_maxSize]

theorem produceAll_append (s : FIFOCache T) (vs : List T) (v : T) :
    s.produceAll (vs ++ [v]) = (s.produceAll vs).produce v := by
  unfold produceAll
  rw [List.foldl_append]
  rfl

/-- After producing `vs` into the empty cache of capacity `c ≥ 1`, the list holds the
last `min n c` values, latest first. -/
theorem produceAll_list (c : Int) (hc : isInt c) (h1 : 1 ≤ c) (vs : List T) :
    ((new c : FIFOCache T).produceAll vs)._cacheList = vs.reverse.take c.toNat := by
  induction vs using List.reverseRecOn with
  | nil => simp [produceAll, new]
  | append_singleton vs v ih =>
    rw [produceAll_append]
    unfold produce
    rw [produceAll_maxSize, ih]
    have hsz : toSizeT (new c : FIFOCache T)._maxSize = c.toNat :=
      toSizeT_of_nonneg c hc (by omega)
    rw [hsz]
    have hpos : 1 ≤ c.toNat := by omega
    obtain ⟨n, hn⟩ : ∃ n, c.toNat = n + 1 := ⟨c.toNat - 1, by omega⟩
    rw [hn, List.reverse_append, List.reverse_singleton, List.singleton_append,
      List.take_succ_cons]
    generalize vs.reverse = l
    have hlt : (List.take (n + 1) l).length = min (n + 1) l.length := List.length_take _ _
    split_ifs with hlen
    · show (v :: List.take (n + 1) l).dropLast = _
      rw [List.length_cons] at hlen
      have hne : List.take (n + 1) l ≠ [] := by
        intro e
        rw [e] at hlen
        simp at hlen
      have hd : (List.take (n + 1) l).dropLast = List.take n l := by
        rw [List.dropLast_eq_take, List.take_take, hlt]
        congr 1
        omega
      rw [List.dropLast_cons_of_ne_nil hne, hd]
    · show v :: List.take (n + 1) l = _
      rw [List.length_cons] at hlen
      have hle : l.length ≤ n := by omega
      rw [List.take_of_length_le (by omega), List.take_of_length_le hle]

theorem fifo_consume_snoc [Inhabited T] (s : FIFOCache T) (rest : List T) (x : T)
    (hl : s._cacheList = rest ++ [x]) :
    s.consume = (x, { s with _cacheList := rest }) := by
  unfold consume
  rw [hl]
  simp

theorem fifo_consume_nil [Inhabited T] (s : FIFOCache T) (hl : s._cacheList = []) :
    s.consume = (default, s) := by
  unfold consume
  rw [hl]
  simp

/-- Successive `consume()` calls return the values oldest first, then the
default-constructed value. -/
theorem fifo_consumes_eq [Inhabited T] (k : Nat) (s : FIFOCache T) :
    (s.consumes k).1 =
      s._cacheList.reverse.take k ++ List.replicate (k - s._cacheList.length) default ∧
    (s.consumes k).2 = { s with _cacheList := (s._cacheList.reverse.drop k).reverse } := by
  induction k generalizing s with
  | zero => simp [consumes]
  | succ k ih =>
    rcases List.eq_nil_or_concat s._cacheList with hl | ⟨rest, x, hl⟩
    · have hc := fifo_consume_nil s hl
      simp only [consumes, hc, ih s, hl]
      simp [List.replicate_succ]
    · rw [List.concat_eq_append] at hl
      have hc := fifo_consume_snoc s rest x hl
      simp only [consumes, hc, ih, hl]
      simp

/-- Claim C3.  After `produce(v1)`, ..., `produce(vn)` on an empty cache of capacity
`c ≥ 1` the cache holds exactly the last `min n c` values; successive `consume()` calls
return them in insertion order, oldest first, and return the default-constructed value
once the cache is empty. -/
theorem C3_fifo_order [Inhabited T] (c : Int) (vs : List T) (hc : isInt c) (h1 : 1 ≤ c) :
    ((new c : FIFOCache T).produceAll vs)._cacheList.reverse
      = vs.drop (vs.length - c.toNat) ∧
    (vs.drop (vs.length - c.toNat)).length = min vs.length c.toNat ∧
    ((new c : FIFOCache T).produceAll vs).size = min (vs.length : Int) c ∧
    ∀ k, (((new c : FIFOCache T).produceAll vs).consumes k).1 =
        (vs.drop (vs.length - c.toNat)).take k ++
          List.replicate (k - min vs.length c.toNat) default ∧
      (((new c : FIFOCache T).produceAll vs).consumes k).2._cacheList.reverse =
        (vs.drop (vs.length - c.toNat)).drop k := by
  have hl := produceAll_list c hc h1 vs
  have hrev : ((new c : FIFOCache T).produceAll vs)._cacheList.reverse
      = vs.drop (vs.length - c.toNat) := by
    rw [hl, List.take_reverse, List.reverse_reverse]
  have hlen : (vs.drop (vs.length - c.toNat)).length = min vs.length c.toNat := by
    rw [List.length_drop]; omega
  have hlen2 : ((new c : FIFOCache T).produceAll vs)._cacheList.length
      = min vs.length c.toNat := by
    rw [← List.length_reverse, hrev, hlen]
  have hcn : c.toNat < 2 ^ 31 := by unfold isInt at hc; omega
  refine ⟨hrev, hlen, ?_, ?_⟩
  · unfold size
    rw [toInt_of_lt _ (by rw [hlen2]; omega), hlen2]
    omega
  · intro k
    have := fifo_consumes_eq k ((new c : FIFOCache T).produceAll vs)
    rw [this.1, this.2, hrev, hlen2]
    simp

/-- Witness of C3: capacity 2, `produce("a")`, `produce("b")`, `produce("c")` evicts
`"a"`; `consume()` returns `"b"`, then `"c"`, then the empty string. -/
theorem C3_fifo_order_witness :
    ((new 2 : FIFOCache String).produceAll ["a", "b", "c"])._cacheList.reverse = ["b", "c"] ∧
    (((new 2 : FIFOCache String).produceAll ["a", "b", "c"]).consumes 3).1
      = ["b", "c", ""] :=
  ⟨(C3_fifo_order 2 ["a", "b", "c"] (by decide) (by decide)).1,
   ((C3_fifo_order 2 ["a", "b", "c"] (by decide) (by decide)).2.2.2 3).1⟩

end FIFOCache

end Caches


namespace Caches

namespace FIFOCache

variable {T : Type}

/-! ## FIFOCache: capacity and bulk consume -/

theorem fifo_consumeLoop_eq [Inhabited T] (n : Nat) (s : FIFOCache T) (res : List T)
    (hn : n ≤ s._cacheList.length) :
    s.consumeLoop n res = (res ++ (s.consumes n).1, (s.consumes n).2) := by
  induction n generalizing s res with
  | zero => simp [consumeLoop, consumes]
  | succ n ih =>
    rcases List.eq_nil_or_concat s._cacheList with hl | ⟨rest, x, hl⟩
    · rw [hl] at hn; simp at hn
    · rw [List.concat_eq_append] at hl
      have hc := fifo_consume_snoc s rest x hl
      have hlast : s._cacheList.getLast? = some x := by rw [hl]; simp
      have hdrop : s._cacheList.dropLast = rest := by rw [hl]; simp
      have hlen : n ≤ rest.length := by rw [hl] at hn; simp at hn; omega
      unfold consumeLoop
      rw [hlast]
      simp only [hdrop]
      rw [ih _ _ (by exact hlen)]
      simp only [consumes, hc, List.append_assoc, List.singleton_append]

end FIFOCache

end Caches


namespace Caches

theorem fmGet_fmModify {K : Type} (fm : List (Int × List (Nat × K))) (f : Int)
    (g : List (Nat × K) → List (Nat × K)) (f1 : Int) :
    fmGet (fmModify fm f g) f1 = if f1 = f then g (fmGet fm f) else fmGet fm f1 := by
  unfold fmGet fmModify
  rw [umFind_umSet]
  split_ifs <;> rfl

theorem fmGet_touch {K : Type} (fm : List (Int × List (Nat × K))) (f f1 : Int) :
    fmGet (fmModify fm f id) f1 = fmGet fm f1 := by
  rw [fmGet_fmModify]
  split_ifs with h
  · subst h; rfl
  · rfl

namespace LFUCache

variable {K V : Type} [DecidableEq K]

/-! ## LFUCache: consistency of the three maps -/

theorem promote_bucket (s : LFUCache K V) (key : K) (val : V) (fr : Int) (it : Nat)
    (hit : umFind s._keyIter key = some it) (f : Int) :
    fmGet (s.promote key val fr)._freqMap f =
      if f = fr + 1 then fmGet s._freqMap (fr + 1) ++ [(s._next, key)]
      else if f = fr then listErase (fmGet s._freqMap fr) it
      else fmGet s._freqMap f := by
  unfold promote
  dsimp only
  rw [fmGet_touch, fmGet_fmModify]
  simp only [fmGet_fmModify, hit]
  have hne : fr + 1 ≠ fr := by omega
  by_cases h1 : f = fr + 1
  · subst h1
    simp [hne]
  · by_cases h2 : f = fr
    · simp [h1, h2]
    · simp [h1, h2]

theorem promote_minFreq (s : LFUCache K V) (key : K) (val : V) (fr : Int) :
    (s.promote key val fr)._minFreq =
      if (fmGet (s.promote key val fr)._freqMap s._minFreq).length = 0
      then s._minFreq + 1 else s._minFreq := by
  unfold promote
  dsimp only
  rw [fmGet_touch]

theorem promote_wf {s : LFUCache K V} (hw : s.Wf) (hm : s.MinOk) (key : K) (val v0 : V)
    (fr : Int) (hfind : umFind s._cacheMap key = some (v0, fr)) :
    (s.promote key val fr).Wf ∧ (s.promote key val fr).MinOk := by
  obtain ⟨hfr, it, hit, hmem⟩ := hw.live key v0 fr hfind
  have hB := promote_bucket s key val fr it hit
  have hcm : ∀ k, umFind (s.promote key val fr)._cacheMap k =
      if k = key then some (val, fr + 1) else umFind s._cacheMap k :=
    fun k => umFind_umSet _ _ _ _
  have hki : ∀ k, umFind (s.promote key val fr)._keyIter k =
      if k = key then some s._next else umFind s._keyIter k :=
    fun k => umFind_umSet _ _ _ _
  have hnext : (s.promote key val fr)._next = s._next + 1 := rfl
  have hne : fr + 1 ≠ fr := by omega
  -- a node of the old bucket `fr` other than the promoted one survives the erasure
  have hkeep : ∀ it1 k, (it1, k) ∈ fmGet s._freqMap fr → k ≠ key →
      (it1, k) ∈ listErase (fmGet s._freqMap fr) it := by
    intro it1 k h1 h2
    refine (mem_listErase _ _ (hw.bucket_nodup fr) _).2 ⟨h1, ?_⟩
    intro e
    have := List.inj_on_of_nodup_map (hw.bucket_nodup fr) h1 hmem e
    simp only [Prod.mk.injEq] at this
    exact h2 this.2
  have hwf : (s.promote key val fr).Wf := by
    refine ⟨umSet_keys_nodup _ _ _ hw.cm_nodup, ?_, ?_, ?_, ?_, ?_⟩
    · intro f
      rw [hB]
      split_ifs with h1 h2
      · rw [List.map_append, List.nodup_append]
        refine ⟨hw.bucket_nodup _, by simp, ?_⟩
        intro a ha hb
        simp only [List.map_cons, List.map_nil, List.mem_singleton] at hb
        obtain ⟨n, hn, rfl⟩ := List.mem_map.1 ha
        have := hw.ids_lt _ n hn
        omega
      · exact (hw.bucket_nodup fr).sublist ((listErase_sublist _ _).map _)
      · exact hw.bucket_nodup f
    · intro f n hn
      rw [hB] at hn
      rw [hnext]
      split_ifs at hn with h1 h2
      · rcases List.mem_append.1 hn with h | h
        · have := hw.ids_lt _ n h; omega
        · simp only [List.mem_singleton] at h; subst h; simp
      · have := hw.ids_lt _ n ((listErase_sublist _ _).subset hn); omega
      · have := hw.ids_lt _ n hn; omega
    · intro k v f hk
      rw [hcm] at hk
      by_cases hkk : k = key
      · subst hkk
        simp only [if_true, Option.some.injEq, Prod.mk.injEq] at hk
        refine ⟨by omega, s._next, by rw [hki]; simp, ?_⟩
        rw [hB, ← hk.2]
        simp
      · simp only [hkk, if_false] at hk
        obtain ⟨h1, it1, h2, h3⟩ := hw.live k v f hk
        refine ⟨h1, it1, by rw [hki]; simp [hkk, h2], ?_⟩
        rw [hB]
        split_ifs with h4 h5
        · subst h4; exact List.mem_append_left _ h3
        · subst h5; exact hkeep it1 k h3 hkk
        · exact h3
    · intro f it1 k hn
      rw [hB] at hn
      rw [hki, hcm]
      split_ifs at hn with h1 h2
      · rcases List.mem_append.1 hn with h | h
        · obtain ⟨h3, v, h4⟩ := hw.bucket _ it1 k h
          have hkk : k ≠ key := by
            intro e
            rw [e, hfind] at h4
            simp only [Option.some.injEq, Prod.mk.injEq] at h4
            exact hne h4.2.symm
          simp only [hkk, if_false]
          exact ⟨h3, v, by rw [h4, h1]⟩
        · simp only [List.mem_singleton, Prod.mk.injEq] at h
          rw [h.2, h.1, h1]
          simp
      · have h3 := (mem_listErase _ _ (hw.bucket_nodup fr) _).1 hn
        obtain ⟨h4, v, h5⟩ := hw.bucket _ it1 k h3.1
        have hkk : k ≠ key := by
          intro e
          rw [e, hit] at h4
          simp only [Option.some.injEq] at h4
          exact h3.2 h4.symm
        simp only [hkk, if_false]
        exact ⟨h4, v, by rw [h5, h2]⟩
      · obtain ⟨h4, v, h5⟩ := hw.bucket _ it1 k hn
        have hkk : k ≠ key := by
          intro e
          rw [e, hfind] at h5
          simp only [Option.some.injEq, Prod.mk.injEq] at h5
          exact h2 h5.2.symm
        simp only [hkk, if_false]
        exact ⟨h4, v, h5⟩
    · intro k it1 hk
      rw [hki] at hk
      rw [hcm]
      by_cases hkk : k = key
      · simp [hkk]
      · simp only [hkk, if_false] at hk ⊢
        exact hw.iter k it1 hk
  refine ⟨hwf, ?_⟩
  intro _
  have hne0 : s._cacheMap ≠ [] := by
    intro e; rw [e] at hfind; simp [umFind] at hfind
  obtain ⟨hmb, hmin⟩ := hm hne0
  rw [promote_minFreq]
  by_cases hempty : (fmGet (s.promote key val fr)._freqMap s._minFreq).length = 0
  · rw [if_pos hempty]
    have hnil := List.length_eq_zero.1 hempty
    -- the bucket of the tracked minimum can only be emptied by the promoted key
    have hfrm : fr = s._minFreq := by
      by_contra hneq
      rw [hB] at hnil
      split_ifs at hnil with h1 h2
      · simp at hnil
      · exact hneq h2.symm
      · exact hmb hnil
    constructor
    · rw [hB, ← hfrm]
      simp
    · intro k v f hk
      rw [hcm] at hk
      by_cases hkk : k = key
      · simp only [hkk, if_true, Option.some.injEq, Prod.mk.injEq] at hk
        omega
      · simp only [hkk, if_false] at hk
        have h1 := hmin k v f hk
        obtain ⟨-, it1, -, h3⟩ := hw.live k v f hk
        have : f ≠ s._minFreq := by
          intro e
          rw [e, ← hfrm] at h3
          have h4 := hkeep it1 k h3 hkk
          rw [hB, ← hfrm] at hnil
          simp only [hne.symm, if_false, if_true] at hnil
          rw [hnil] at h4
          simp at h4
        omega
  · rw [if_neg hempty]
    constructor
    · intro e
      rw [e] at hempty
      simp at hempty
    · intro k v f hk
      rw [hcm] at hk
      by_cases hkk : k = key
      · simp only [hkk, if_true, Option.some.injEq, Prod.mk.injEq] at hk
        have := hmin key v0 fr hfind
        omega
      · simp only [hkk, if_false] at hk
        exact hmin k v f hk

theorem evict_eq {s : LFUCache K V} (hw : s.Wf) (hm : s.MinOk) (hne : s._cacheMap ≠ []) :
    ∃ it victim tl vv, fmGet s._freqMap s._minFreq = (it, victim) :: tl ∧
      umFind s._cacheMap victim = some (vv, s._minFreq) ∧
      s.evict = { s with _cacheMap := umErase s._cacheMap victim,
                         _keyIter := umErase s._keyIter victim,
                         _freqMap := fmModify s._freqMap s._minFreq List.tail } := by
  obtain ⟨hmb, -⟩ := hm hne
  cases hb : fmGet s._freqMap s._minFreq with
  | nil => exact absurd hb hmb
  | cons x tl =>
    obtain ⟨-, vv, hv⟩ := hw.bucket s._minFreq x.1 x.2 (by rw [hb]; simp)
    refine ⟨x.1, x.2, tl, vv, rfl, hv, ?_⟩
    unfold evict
    rw [hb]
    rfl

theorem evict_wf {s : LFUCache K V} (hw : s.Wf) (hm : s.MinOk) (hne : s._cacheMap ≠ []) :
    s.evict.Wf := by
  obtain ⟨it, victim, tl, vv, hb, hv, he⟩ := evict_eq hw hm hne
  have hB : ∀ f, fmGet s.evict._freqMap f =
      if f = s._minFreq then tl else fmGet s._freqMap f := by
    intro f
    rw [he]
    show fmGet (fmModify s._freqMap s._minFreq List.tail) f = _
    rw [fmGet_fmModify, hb]
    rfl
  have hsub : ∀ f, (fmGet s.evict._freqMap f).Sublist (fmGet s._freqMap f) := by
    intro f
    rw [hB]
    split_ifs with h
    · rw [h, hb]; exact List.sublist_cons_self _ _
    · exact List.Sublist.refl _
  have hcm : ∀ k, umFind s.evict._cacheMap k =
      if k = victim then none else umFind s._cacheMap k := by
    intro k; rw [he]; exact umFind_umErase _ _ _
  have hki : ∀ k, umFind s.evict._keyIter k =
      if k = victim then none else umFind s._keyIter k := by
    intro k; rw [he]; exact umFind_umErase _ _ _
  have hnext : s.evict._next = s._next := by rw [he]
  have hhead := hw.bucket s._minFreq it victim (by rw [hb]; simp)
  have hnd := hw.bucket_nodup s._minFreq
  rw [hb, List.map_cons, List.nodup_cons] at hnd
  refine ⟨?_, ?_, ?_, ?_, ?_, ?_⟩
  · rw [he]; exact umErase_keys_nodup _ _ hw.cm_nodup
  · intro f
    exact (hw.bucket_nodup f).sublist ((hsub f).map _)
  · intro f n hn
    rw [hnext]
    exact hw.ids_lt f n ((hsub f).subset hn)
  · intro k v f hk
    rw [hcm] at hk
    by_cases hkk : k = victim
    · simp [hkk] at hk
    · simp only [hkk, if_false] at hk
      obtain ⟨h1, it1, h2, h3⟩ := hw.live k v f hk
      refine ⟨h1, it1, by rw [hki]; simp [hkk, h2], ?_⟩
      rw [hB]
      split_ifs with h4
      · rw [h4, hb] at h3
        rcases List.mem_cons.1 h3 with e | e
        · simp only [Prod.mk.injEq] at e
          exact absurd e.2 hkk
        · exact e
      · exact h3
  · intro f it1 k hn
    obtain ⟨h1, v, h2⟩ := hw.bucket f it1 k ((hsub f).subset hn)
    have hkk : k ≠ victim := by
      intro e
      subst e
      rw [hhead.1] at h1
      rw [hv] at h2
      simp only [Option.some.injEq, Prod.mk.injEq] at h1 h2
      rw [hB, ← h2.2] at hn
      simp only [if_true] at hn
      apply hnd.1
      rw [h1]
      exact List.mem_map.2 ⟨_, hn, rfl⟩
    rw [hki, hcm]
    simp only [hkk, if_false]
    exact ⟨h1, v, h2⟩
  · intro k it1 hk
    rw [hki] at hk
    rw [hcm]
    by_cases hkk : k = victim
    · simp [hkk] at hk
    · simp only [hkk, if_false] at hk ⊢
      exact hw.iter k it1 hk

theorem insertNew_wf {s : LFUCache K V} (hw : s.Wf) (key : K) (value : V)
    (hnone : umFind s._cacheMap key = none) :
    (s.insertNew key value).Wf ∧ (s.insertNew key value).MinOk := by
  have hB : ∀ f, fmGet (s.insertNew key value)._freqMap f =
      if f = 1 then fmGet s._freqMap 1 ++ [(s._next, key)] else fmGet s._freqMap f := by
    intro f
    show fmGet (fmModify s._freqMap 1 (fun b => b ++ [(s._next, key)])) f = _
    rw [fmGet_fmModify]
  have hcm : ∀ k, umFind (s.insertNew key value)._cacheMap k =
      if k = key then some (value, 1) else umFind s._cacheMap k :=
    fun k => umFind_umSet _ _ _ _
  have hki : ∀ k, umFind (s.insertNew key value)._keyIter k =
      if k = key then some s._next else umFind s._keyIter k :=
    fun k => umFind_umSet _ _ _ _
  have hnext : (s.insertNew key value)._next = s._next + 1 := rfl
  have hwf : (s.insertNew key value).Wf := by
    refine ⟨umSet_keys_nodup _ _ _ hw.cm_nodup, ?_, ?_, ?_, ?_, ?_⟩
    · intro f
      rw [hB]
      split_ifs with h1
      · rw [List.map_append, List.nodup_append]
        refine ⟨hw.bucket_nodup _, by simp, ?_⟩
        intro a ha hb
        simp only [List.map_cons, List.map_nil, List.mem_singleton] at hb
        obtain ⟨n, hn, rfl⟩ := List.mem_map.1 ha
        have := hw.ids_lt _ n hn
        omega
      · exact hw.bucket_nodup f
    · intro f n hn
      rw [hB] at hn
      rw [hnext]
      split_ifs at hn with h1
      · rcases List.mem_append.1 hn with h | h
        · have := hw.ids_lt _ n h; omega
        · simp only [List.mem_singleton] at h; subst h; simp
      · have := hw.ids_lt _ n hn; omega
    · intro k v f hk
      rw [hcm] at hk
      by_cases hkk : k = key
      · subst hkk
        simp only [if_true, Option.some.injEq, Prod.mk.injEq] at hk
        refine ⟨by omega, s._next, by rw [hki]; simp, ?_⟩
        rw [hB, ← hk.2]
        simp
      · simp only [hkk, if_false] at hk
        obtain ⟨h1, it1, h2, h3⟩ := hw.live k v f hk
        refine ⟨h1, it1, by rw [hki]; simp [hkk, h2], ?_⟩
        rw [hB]
        split_ifs with h4
        · subst h4; exact List.mem_append_left _ h3
        · exact h3
    · intro f it1 k hn
      rw [hB] at hn
      rw [hki, hcm]
      have hold : (it1, k) ∈ fmGet s._freqMap f →
          (if k = key then some s._next else umFind s._keyIter k) = some it1 ∧
          ∃ v, (if k = key then some (value, 1) else umFind s._cacheMap k) = some (v, f) := by
        intro h
        obtain ⟨h3, v, h4⟩ := hw.bucket _ it1 k h
        have hkk : k ≠ key := by
          intro e
          rw [e, hnone] at h4
          simp at h4
        simp only [hkk, if_false]
        exact ⟨h3, v, h4⟩
      split_ifs at hn with h1
      · rcases List.mem_append.1 hn with h | h
        · exact hold (h1 ▸ h)
        · simp only [List.mem_singleton, Prod.mk.injEq] at h
          rw [h.2, h.1, h1]
          simp
      · exact hold hn
    · intro k it1 hk
      rw [hki] at hk
      rw [hcm]
      by_cases hkk : k = key
      · simp [hkk]
      · simp only [hkk, if_false] at hk ⊢
        exact hw.iter k it1 hk
  refine ⟨hwf, ?_⟩
  intro _
  constructor
  · show fmGet (s.insertNew key value)._freqMap 1 ≠ []
    rw [hB]
    simp
  · intro k v f hk
    exact (hwf.live k v f hk).1

end LFUCache

end Caches


namespace Caches

namespace LFUCache

variable {K V : Type} [DecidableEq K]

/-! ## LFUCache: the methods on consistent states -/

theorem promote_length {s : LFUCache K V} (key : K) (val v0 : V) (fr : Int)
    (hfind : umFind s._cacheMap key = some (v0, fr)) :
    (s.promote key val fr)._cacheMap.length = s._cacheMap.length := by
  show (umSet s._cacheMap key (val, fr + 1)).length = _
  rw [umSet_length, hfind]
  rfl

theorem promote_good {s : LFUCache K V} (hg : s.Good) (key : K) (val v0 : V) (fr : Int)
    (hfind : umFind s._cacheMap key = some (v0, fr)) : (s.promote key val fr).Good := by
  obtain ⟨hw, hm, hl, hi⟩ := hg
  obtain ⟨h1, h2⟩ := promote_wf hw hm key val v0 fr hfind
  refine ⟨h1, h2, ?_, hi⟩
  rw [promote_length key val v0 fr hfind]
  exact hl

theorem evict_length {s : LFUCache K V} (hw : s.Wf) (hm : s.MinOk) (hne : s._cacheMap ≠ []) :
    s.evict._cacheMap.length + 1 = s._cacheMap.length := by
  obtain ⟨it, victim, tl, vv, hb, hv, he⟩ := evict_eq hw hm hne
  rw [he]
  exact umErase_length _ _ hw.cm_nodup
    ((umFind_isSome_iff _ _).1 (by rw [hv]; rfl))

theorem insertNew_length (s : LFUCache K V) (key : K) (value : V)
    (hnone : umFind s._cacheMap key = none) :
    (s.insertNew key value)._cacheMap.length = s._cacheMap.length + 1 := by
  show (umSet s._cacheMap key (value, 1)).length = _
  rw [umSet_length, hnone]
  rfl

theorem evict_find_none {s : LFUCache K V} (key : K)
    (hnone : umFind s._cacheMap key = none) : umFind s.evict._cacheMap key = none := by
  unfold evict
  cases (fmGet s._freqMap s._minFreq).head? with
  | none => exact hnone
  | some victim =>
    show umFind (umErase s._cacheMap victim.2) key = none
    rw [umFind_umErase, hnone]
    simp

theorem evict_maxSize (s : LFUCache K V) : s.evict._maxSize = s._maxSize := by
  unfold evict
  cases (fmGet s._freqMap s._minFreq).head? <;> rfl

/-- The three cases of `produce` on a state of a cache with capacity at least 1. -/
theorem lfu_produce_cases {s : LFUCache K V} (hg : s.Good) (h1 : 1 ≤ s._maxSize) (key : K)
    (value : V) :
    (∀ v0 fr, umFind s._cacheMap key = some (v0, fr) →
      s.produce key value = s.promote key value fr) ∧
    (umFind s._cacheMap key = none → s._cacheMap.length < s._maxSize.toNat →
      s.produce key value = s.insertNew key value) ∧
    (umFind s._cacheMap key = none → s._cacheMap.length = s._maxSize.toNat →
      s.produce key value = s.evict.insertNew key value ∧ s._cacheMap ≠ []) := by
  have hpos : ¬ s._maxSize ≤ 0 := by omega
  have hsz : toSizeT s._maxSize = s._maxSize.toNat :=
    toSizeT_of_nonneg _ hg.2.2.2 (by omega)
  refine ⟨?_, ?_, ?_⟩
  · intro v0 fr hf
    unfold produce
    rw [if_neg hpos, hf]
  · intro hf hlt
    unfold produce
    rw [if_neg hpos, hf, hsz]
    have : ¬ s._cacheMap.length ≥ s._maxSize.toNat := by omega
    simp only [this, if_false]
  · intro hf hlt
    unfold produce
    rw [if_neg hpos, hf, hsz]
    have : s._cacheMap.length ≥ s._maxSize.toNat := by omega
    simp only [this, if_true]
    refine ⟨trivial, ?_⟩
    intro e
    rw [e] at hlt
    simp at hlt
    omega

theorem lfu_produce_good {s : LFUCache K V} (hg : s.Good) (key : K) (value : V) :
    (s.produce key value).Good := by
  by_cases h0 : s._maxSize ≤ 0
  · have : s.produce key value = s := by unfold produce; rw [if_pos h0]
    rw [this]; exact hg
  · have h1 : 1 ≤ s._maxSize := by omega
    have hsz : toSizeT s._maxSize = s._maxSize.toNat :=
      toSizeT_of_nonneg _ hg.2.2.2 (by omega)
    have hc := lfu_produce_cases hg h1 key value
    have hle := hg.2.2.1
    rw [hsz] at hle
    cases hf : umFind s._cacheMap key with
    | some vf =>
      rw [hc.1 vf.1 vf.2 hf]
      exact promote_good hg key value vf.1 vf.2 hf
    | none =>
      rcases Nat.lt_or_ge s._cacheMap.length s._maxSize.toNat with hlt | hge
      · rw [hc.2.1 hf hlt]
        obtain ⟨w1, w2⟩ := insertNew_wf hg.1 key value hf
        refine ⟨w1, w2, ?_, hg.2.2.2⟩
        rw [insertNew_length s key value hf]
        show _ ≤ toSizeT s._maxSize
        rw [hsz]; omega
      · have heq : s._cacheMap.length = s._maxSize.toNat := by omega
        obtain ⟨e, hne⟩ := hc.2.2 hf heq
        rw [e]
        have hew := evict_wf hg.1 hg.2.1 hne
        have hen := evict_find_none key hf
        obtain ⟨w1, w2⟩ := insertNew_wf hew key value hen
        refine ⟨w1, w2, ?_, ?_⟩
        · rw [insertNew_length _ key value hen]
          show _ ≤ toSizeT s.evict._maxSize
          rw [evict_maxSize, hsz]
          have := evict_length hg.1 hg.2.1 hne
          omega
        · show isInt s.evict._maxSize
          rw [evict_maxSize]; exact hg.2.2.2

theorem lfu_consume_good [Inhabited V] {s : LFUCache K V} (hg : s.Good) (key : K) :
    (s.consume key).2.Good := by
  unfold consume
  cases hf : umFind s._cacheMap key with
  | none => exact hg
  | some vf => exact promote_good hg key vf.1 vf.1 vf.2 hf

theorem lfu_clear_good {s : LFUCache K V} (hg : s.Good) : s.clear.Good := by
  refine ⟨⟨by simp [clear], ?_, ?_, ?_, ?_, ?_⟩, ?_, Nat.zero_le _, hg.2.2.2⟩
  · intro f; simp [clear, fmGet, umFind]
  · intro f n hn; simp [clear, fmGet, umFind] at hn
  · intro k v f hk; simp [clear, umFind] at hk
  · intro f it k hn; simp [clear, fmGet, umFind] at hn
  · intro k it hk; simp [clear, umFind] at hk
  · intro hne; exact absurd rfl hne

theorem lfu_step_good [Inhabited V] {s : LFUCache K V} (hg : s.Good) (op : Op K V) :
    (s.step op).Good := by
  cases op with
  | produce key value => exact lfu_produce_good hg key value
  | consume key => exact lfu_consume_good hg key
  | clear => exact lfu_clear_good hg

theorem lfu_run_good [Inhabited V] (c mf : Int) (hc : isInt c) (h : List (Op K V)) :
    (run c mf h).Good := by
  induction h with
  | nil =>
    refine ⟨⟨by simp [run, new], ?_, ?_, ?_, ?_, ?_⟩, ?_, Nat.zero_le _, hc⟩
    · intro f; simp [run, new, fmGet, umFind]
    · intro f n hn; simp [run, new, fmGet, umFind] at hn
    · intro k v f hk; simp [run, new, umFind] at hk
    · intro f it k hn; simp [run, new, fmGet, umFind] at hn
    · intro k it hk; simp [run, new, umFind] at hk
    · intro hne; exact absurd rfl hne
  | cons op h ih => exact lfu_step_good ih op

end LFUCache

end Caches


namespace Caches

namespace LFUCache

variable {K V : Type} [DecidableEq K]

/-! ## LFUCache: eviction and access -/

end LFUCache

end Caches


namespace Caches

namespace LFUCache

variable {K V : Type} [DecidableEq K]

/-! ## LFUCache: order of arrival within a bucket -/

end LFUCache

end Caches


namespace Caches

/-! ## Properties shared by the caches -/

theorem LRUCache.lru_consumes_eq {K V : Type} [DecidableEq K] [Inhabited K] [Inhabited V]
    (n : Nat) (s : LRUCache K V) (hs : s.Consistent) (hn : n ≤ s._cacheList.length) :
    (s.consumes n).1 = s.entries.reverse.take n ∧
    (s.consumes n).2.entries = (s.entries.reverse.drop n).reverse ∧
    (s.consumes n).2.Consistent := by
  induction n generalizing s with
  | zero => simp [LRUCache.consumes, hs]
  | succ n ih =>
    rcases List.eq_nil_or_concat s._cacheList with hl | ⟨rest, x, hl⟩
    · rw [hl] at hn; simp at hn
    · rw [List.concat_eq_append] at hl
      have hc := (LRUCache.lru_consume_eq hs).1 rest x hl
      have hp := LRUCache.popBack_snoc hs rest x hl
      have hlen : n ≤ s.popBack._cacheList.length := by
        rw [hp.2]; rw [hl] at hn; simp at hn; omega
      have := ih s.popBack (LRUCache.popBack_consistent hs) hlen
      have he : s.entries = s.popBack.entries ++ [x.2] := by
        unfold LRUCache.entries; rw [hp.2, hl]; simp
      simp only [LRUCache.consumes, hc, this, he]
      simp

theorem LRUCache.lru_consumeLoop_eq {K V : Type} [DecidableEq K] [Inhabited K] [Inhabited V]
    (n : Nat) (s : LRUCache K V) (res : List (K × V)) (hs : s.Consistent)
    (hn : n ≤ s._cacheList.length) :
    s.consumeLoop n res = (res ++ (s.consumes n).1, (s.consumes n).2) := by
  induction n generalizing s res with
  | zero => simp [LRUCache.consumeLoop, LRUCache.consumes]
  | succ n ih =>
    rcases List.eq_nil_or_concat s._cacheList with hl | ⟨rest, x, hl⟩
    · rw [hl] at hn; simp at hn
    · rw [List.concat_eq_append] at hl
      have hc := (LRUCache.lru_consume_eq hs).1 rest x hl
      have hp := LRUCache.popBack_snoc hs rest x hl
      have hlast : s._cacheList.getLast? = some x := by rw [hl]; simp
      have hpb : s.popBack =
          { s with m := umErase s.m x.2.1, _cacheList := s._cacheList.dropLast } := by
        unfold LRUCache.popBack; rw [hlast]
      have hlen : n ≤ s.popBack._cacheList.length := by
        rw [hp.2]; rw [hl] at hn; simp at hn; omega
      unfold LRUCache.consumeLoop
      rw [hlast]
      dsimp only
      rw [← hpb, ih _ _ (LRUCache.popBack_consistent hs) hlen]
      simp only [LRUCache.consumes, hc, List.append_assoc, List.singleton_append]

/-- The count computed by `num = (size > num) ? num : size` for a non-negative `int`
argument and a container of `len` elements. -/
theorem bulk_count (len : Nat) (n : Int) (hn : isInt n) (h0 : 0 ≤ n) :
    (toInt (if len > toSizeT n then toSizeT n else len)).toNat = min n.toNat len := by
  have hn2 : n.toNat < 2 ^ 31 := by unfold isInt at hn; omega
  rw [toSizeT_of_nonneg n hn h0]
  split_ifs with h
  · rw [toInt_of_lt _ hn2, Int.toNat_natCast]; omega
  · rw [toInt_of_lt _ (by omega), Int.toNat_natCast]; omega

/-- Claim C10.  For an `LRUCache` in a reachable state and for a `FIFOCache` in any state
with fewer than `2^31` values, `consume(n)` with `n ≥ 0` returns exactly
`min(n, size())` entries, oldest first, and returns the same entries and leaves the same
state as `min(n, size())` successive `consume()` calls; when the cache holds fewer than
`n` entries it returns `size()` entries and leaves the cache empty. -/
theorem C10_bulk_consume {K V T : Type} [DecidableEq K] [Inhabited K] [Inhabited V]
    [Inhabited T] (c : Int) (h : List (LRUCache.Op K V)) (t : FIFOCache T) (n : Int)
    (hr : LRUCache.Reachable c h) (ht : t._cacheList.length < 2 ^ 31) (hn : isInt n)
    (h0 : 0 ≤ n) :
    ((LRUCache.run c h).consumeN n =
        (LRUCache.run c h).consumes (min n (LRUCache.run c h).size).toNat ∧
      ((LRUCache.run c h).consumeN n).1.length = (min n (LRUCache.run c h).size).toNat ∧
      ((LRUCache.run c h).consumeN n).1 =
        (LRUCache.run c h).entries.reverse.take (min n (LRUCache.run c h).size).toNat ∧
      ((LRUCache.run c h).size < n →
        ((LRUCache.run c h).consumeN n).1.length = (LRUCache.run c h).size.toNat ∧
        ((LRUCache.run c h).consumeN n).2.entries = [] ∧
        ((LRUCache.run c h).consumeN n).2.size = 0)) ∧
    (t.consumeN n = t.consumes (min n t.size).toNat ∧
      (t.consumeN n).1.length = (min n t.size).toNat ∧
      (t.consumeN n).1 = t._cacheList.reverse.take (min n t.size).toNat ∧
      (t.size < n →
        (t.consumeN n).1.length = t.size.toNat ∧ (t.consumeN n).2._cacheList = [] ∧
        (t.consumeN n).2.size = 0)) := by
  constructor
  · obtain ⟨hg, hlt⟩ := LRUCache.reachable_good c h hr
    generalize LRUCache.run c h = s at *
    have hsz := LRUCache.lru_size_eq_length hg.1 hlt
    have hk : (min n s.size).toNat = min n.toNat s._cacheList.length := by
      rw [hsz]; omega
    have hcount := bulk_count s.m.length n hn h0
    rw [hg.1.length_eq] at hcount
    have hle : min n.toNat s._cacheList.length ≤ s._cacheList.length := by omega
    have hcs := LRUCache.lru_consumes_eq _ s hg.1 hle
    have he : s.consumeN n = s.consumes (min n.toNat s._cacheList.length) := by
      have h1 : s.consumeN n = s.consumeLoop
          (toInt (if s.m.length > toSizeT n then toSizeT n else s.m.length)).toNat [] := rfl
      rw [h1, hg.1.length_eq, hcount, LRUCache.lru_consumeLoop_eq _ s [] hg.1 hle]
      simp
    have hlen : s.entries.length = s._cacheList.length := by
      unfold LRUCache.entries; simp
    rw [hk, he]
    refine ⟨rfl, ?_, hcs.1, ?_⟩
    · rw [hcs.1]; simp [hlen]
    · intro hlt2
      rw [hsz] at hlt2 ⊢
      have hmin : min n.toNat s._cacheList.length = s._cacheList.length := by omega
      rw [hmin] at hcs ⊢
      have hnil : (s.consumes s._cacheList.length).2.entries = [] := by
        rw [hcs.2.1, List.drop_of_length_le (by simp [hlen])]; rfl
      refine ⟨by rw [hcs.1]; simp [hlen], hnil, ?_⟩
      have hl0 : (s.consumes s._cacheList.length).2._cacheList = [] := by
        unfold LRUCache.entries at hnil
        exact List.map_eq_nil_iff.1 hnil
      rw [LRUCache.lru_size_eq_length hcs.2.2 (by rw [hl0]; simp), hl0]
      rfl
  · have hsz : t.size = (t._cacheList.length : Int) := by
      unfold FIFOCache.size; rw [toInt_of_lt _ ht]
    have hk : (min n t.size).toNat = min n.toNat t._cacheList.length := by
      rw [hsz]; omega
    have hcount := bulk_count t._cacheList.length n hn h0
    have hle : min n.toNat t._cacheList.length ≤ t._cacheList.length := by omega
    have hcs := FIFOCache.fifo_consumes_eq (min n.toNat t._cacheList.length) t
    have he : t.consumeN n = t.consumes (min n.toNat t._cacheList.length) := by
      have h1 : t.consumeN n = t.consumeLoop
          (toInt (if t._cacheList.length > toSizeT n then toSizeT n
            else t._cacheList.length)).toNat [] := rfl
      rw [h1, hcount, FIFOCache.fifo_consumeLoop_eq _ t [] hle]
      simp
    have hrep : min n.toNat t._cacheList.length - t._cacheList.length = 0 := by omega
    rw [hrep] at hcs
    rw [hk, he]
    refine ⟨rfl, ?_, by rw [hcs.1]; simp, ?_⟩
    · rw [hcs.1]; simp
    · intro hlt2
      rw [hsz] at hlt2 ⊢
      have hmin : min n.toNat t._cacheList.length = t._cacheList.length := by omega
      rw [hmin] at hcs ⊢
      have hl0 : (t.consumes t._cacheList.length).2._cacheList = [] := by
        rw [hcs.2]
        show (List.drop t._cacheList.length t._cacheList.reverse).reverse = []
        rw [List.drop_of_length_le (by simp)]; rfl
      refine ⟨by rw [hcs.1]; simp, hl0, ?_⟩
      unfold FIFOCache.size
      rw [hl0]
      rfl

/-- Witness of C10: an `LRUCache` and a `FIFOCache` that hold three entries; `consume(2)`
returns the two oldest, `consume(5)` returns all three and leaves the cache empty. -/
theorem C10_bulk_consume_witness :
    (((LRUCache.run 5 [LRUCache.Op.produce 3 "c", LRUCache.Op.produce 2 "b",
        LRUCache.Op.produce 1 "a"]).consumeN 2).1 = [(1, "a"), (2, "b")] ∧
     (((FIFOCache.new 5 : FIFOCache String).produceAll ["a", "b", "c"]).consumeN 2).1
        = ["a", "b"]) ∧
    (((LRUCache.run 5 [LRUCache.Op.produce 3 "c", LRUCache.Op.produce 2 "b",
        LRUCache.Op.produce 1 "a"]).consumeN 5).1 = [(1, "a"), (2, "b"), (3, "c")] ∧
     ((LRUCache.run 5 [LRUCache.Op.produce 3 "c", LRUCache.Op.produce 2 "b",
        LRUCache.Op.produce 1 "a"]).consumeN 5).2.entries = [] ∧
     (((FIFOCache.new 5 : FIFOCache String).produceAll ["a", "b", "c"]).consumeN 5).1
        = ["a", "b", "c"] ∧
     (((FIFOCache.new 5 : FIFOCache String).produceAll ["a", "b", "c"]).consumeN
        5).2._cacheList = []) := by
  have h2 := C10_bulk_consume 5 [LRUCache.Op.produce 3 "c", LRUCache.Op.produce 2 "b",
    LRUCache.Op.produce 1 "a"] ((FIFOCache.new 5 : FIFOCache String).produceAll
    ["a", "b", "c"]) 2 (by decide) (by decide) (by decide) (by decide)
  have h5 := C10_bulk_consume 5 [LRUCache.Op.produce 3 "c", LRUCache.Op.produce 2 "b",
    LRUCache.Op.produce 1 "a"] ((FIFOCache.new 5 : FIFOCache String).produceAll
    ["a", "b", "c"]) 5 (by decide) (by decide) (by decide) (by decide)
  exact ⟨⟨h2.1.2.2.1, h2.2.2.2.1⟩,
    ⟨h5.1.2.2.1, (h5.1.2.2.2 (by decide)).2.1, h5.2.2.2.1, (h5.2.2.2.2 (by decide)).2.1⟩⟩

end Caches


namespace Caches

/-! ## Signed and unsigned comparisons -/

/-- With a negative capacity the test `size > _maxSize` of `produce`, made on `size_t`,
never succeeds. -/
theorem size_le_neg_capacity (len : Nat) (c : Int) (hc : isInt c) (h0 : c < 0)
    (hlen : len < 2 ^ 63) : ¬ len > toSizeT c := by
  have := toSizeT_of_neg c hc h0
  omega

/-- With a negative capacity `FIFOCache::produce` keeps every value. -/
theorem FIFOCache.fifo_produce_neg_capacity {T : Type} (s : FIFOCache T) (t : T)
    (hc : isInt s._maxSize) (h0 : s._maxSize < 0) (hlen : s._cacheList.length + 1 < 2 ^ 63) :
    (s.produce t)._cacheList = t :: s._cacheList := by
  unfold FIFOCache.produce
  rw [if_neg (size_le_neg_capacity _ _ hc h0 (by simpa using hlen))]

/-- With a negative capacity `LRUCache::produce` of a new key keeps every entry. -/
theorem LRUCache.lru_produce_neg_capacity {K V : Type} [DecidableEq K] (s : LRUCache K V)
    (key : K) (val : V) (hs : s.Consistent) (hc : isInt s._maxSize) (h0 : s._maxSize < 0)
    (hlen : s._cacheList.length + 1 < 2 ^ 63) (hnew : umFind s.m key = none) :
    (s.produce key val).entries = (key, val) :: s.entries := by
  have hdrop : s.dropKey key = s := by unfold LRUCache.dropKey; rw [hnew]
  have hcp : (s.pushFront key val).Consistent := hs.of_pushFront val hnew
  rw [LRUCache.produce_eq hs, hdrop, if_neg]
  · rfl
  · apply size_le_neg_capacity _ _ hc h0
    rw [hcp.length_eq]
    simpa [LRUCache.pushFront] using hlen

/-- Claim C12 (the code departs from it).  With capacity `0` the three caches retain
nothing and `LFUCache` retains nothing with capacity `-1` either, but an `LRUCache` and a
`FIFOCache` constructed with capacity `-1` retain what is produced: after one `produce`
their `size()` is 1, after two it is 2. -/
theorem C12_negative_capacity_retains :
    (LRUCache.run 0 [LRUCache.Op.produce 1 "a"]).size = 0 ∧
    (FIFOCache.run 0 [FIFOCache.Op.produce "a"]).size = 0 ∧
    (LFUCache.run 0 0 [LFUCache.Op.produce 1 "a"]).size = 0 ∧
    (LFUCache.run (-1) 0 [LFUCache.Op.produce 1 "a"]).size = 0 ∧
    (LRUCache.run (-1) [LRUCache.Op.produce 1 "a"]).size = 1 ∧
    (FIFOCache.run (-1) [FIFOCache.Op.produce "a"]).size = 1 ∧
    (LRUCache.run (-1) [LRUCache.Op.produce 2 "b", LRUCache.Op.produce 1 "a"]).size = 2 ∧
    (FIFOCache.run (-1) [FIFOCache.Op.produce "b", FIFOCache.Op.produce "a"]).size = 2 := by
  decide

/-- The count computed by `num = (size > num) ? num : size` for a negative `int`
argument is the whole size of the container. -/
theorem bulk_count_neg (len : Nat) (n : Int) (hn : isInt n) (h0 : n < 0)
    (hlen : len < 2 ^ 31) :
    (toInt (if len > toSizeT n then toSizeT n else len)).toNat = len := by
  have := toSizeT_of_neg n hn h0
  rw [if_neg (by omega), toInt_of_lt _ hlen, Int.toNat_natCast]

/-- Claim C20 (the code departs from it).  `consume(0)` returns nothing and removes
nothing, but `consume(-1)` on an `LRUCache` and on a `FIFOCache` that hold two entries
returns both entries and leaves the cache empty. -/
theorem C20_negative_count_drains :
    ((LRUCache.run 5 [LRUCache.Op.produce 2 "b", LRUCache.Op.produce 1 "a"]).consumeN 0).1
      = [] ∧
    ((LRUCache.run 5 [LRUCache.Op.produce 2 "b", LRUCache.Op.produce 1 "a"]).consumeN 0).2
      = LRUCache.run 5 [LRUCache.Op.produce 2 "b", LRUCache.Op.produce 1 "a"] ∧
    ((FIFOCache.run 5 [FIFOCache.Op.produce "b", FIFOCache.Op.produce "a"]).consumeN 0)
      = ([], FIFOCache.run 5 [FIFOCache.Op.produce "b", FIFOCache.Op.produce "a"]) ∧
    ((LRUCache.run 5 [LRUCache.Op.produce 2 "b", LRUCache.Op.produce 1 "a"]).consumeN
      (-1)).1 = [(1, "a"), (2, "b")] ∧
    ((LRUCache.run 5 [LRUCache.Op.produce 2 "b", LRUCache.Op.produce 1 "a"]).consumeN
      (-1)).2.size = 0 ∧
    ((FIFOCache.run 5 [FIFOCache.Op.produce "b", FIFOCache.Op.produce "a"]).consumeN
      (-1)).1 = ["a", "b"] ∧
    ((FIFOCache.run 5 [FIFOCache.Op.produce "b", FIFOCache.Op.produce "a"]).consumeN
      (-1)).2.size = 0 := by
  decide

/-- For a negative `int` argument `consume(n)` of a `FIFOCache` with fewer than `2^31`
values returns all of them, oldest first, and empties the cache. -/
theorem FIFOCache.fifo_consumeN_neg {T : Type} [Inhabited T] (t : FIFOCache T) (n : Int)
    (hn : isInt n) (h0 : n < 0) (ht : t._cacheList.length < 2 ^ 31) :
    (t.consumeN n).1 = t._cacheList.reverse ∧ (t.consumeN n).2._cacheList = [] := by
  have hcount := bulk_count_neg t._cacheList.length n hn h0 ht
  have hcs := FIFOCache.fifo_consumes_eq t._cacheList.length t
  have he : t.consumeN n = t.consumes t._cacheList.length := by
    have h1 : t.consumeN n = t.consumeLoop
        (toInt (if t._cacheList.length > toSizeT n then toSizeT n
          else t._cacheList.length)).toNat [] := rfl
    rw [h1, hcount, FIFOCache.fifo_consumeLoop_eq _ t [] (le_refl _)]
    simp
  rw [he, hcs.1, hcs.2]
  constructor
  · simp
  · show (List.drop t._cacheList.length t._cacheList.reverse).reverse = []
    rw [List.drop_of_length_le (by simp)]; rfl

end Caches


namespace Caches

/-! ## The result of `consume` on an absent key or an empty cache -/

/-- For a negative `int` argument `consume(n)` of an `LRUCache` in a reachable state
returns all entries, oldest first, and empties the cache. -/
theorem LRUCache.lru_consumeN_neg {K V : Type} [DecidableEq K] [Inhabited K] [Inhabited V]
    (c : Int) (h : List (LRUCache.Op K V)) (n : Int) (hr : LRUCache.Reachable c h)
    (hn : isInt n) (h0 : n < 0) :
    ((LRUCache.run c h).consumeN n).1 = (LRUCache.run c h).entries.reverse ∧
    ((LRUCache.run c h).consumeN n).2.entries = [] := by
  obtain ⟨hg, hlt⟩ := LRUCache.reachable_good c h hr
  generalize LRUCache.run c h = s at *
  have hcount := bulk_count_neg s.m.length n hn h0 (by rw [hg.1.length_eq]; exact hlt)
  rw [hg.1.length_eq] at hcount
  have hcs := LRUCache.lru_consumes_eq _ s hg.1 (le_refl _)
  have hlen : s.entries.length = s._cacheList.length := by
    unfold LRUCache.entries; simp
  have he : s.consumeN n = s.consumes s._cacheList.length := by
    have h1 : s.consumeN n = s.consumeLoop
        (toInt (if s.m.length > toSizeT n then toSizeT n else s.m.length)).toNat [] := rfl
    rw [h1, hg.1.length_eq, hcount, LRUCache.lru_consumeLoop_eq _ s [] hg.1 (le_refl _)]
    simp
  rw [he, hcs.1, hcs.2.1]
  constructor
  · rw [List.take_of_length_le (by simp [hlen])]
  · rw [List.drop_of_length_le (by simp [hlen])]; rfl

end Caches


namespace Caches

namespace LRUCache

variable {K V : Type} [DecidableEq K]

/-! ## LRUCache: overwrite and consistency -/

end LRUCache

end Caches


namespace Caches

/-! ## clear -/

/-- The loop of `clear()` run a second time pops nothing: after the first run the
remaining length, converted to `int`, is not positive. -/
theorem toInt_after_clear (len : Nat) : (toInt (len - (toInt len).toNat)).toNat = 0 := by
  unfold toInt
  split_ifs with h1 h2 h3
  · simp only [Int.toNat_natCast] at h2 ⊢
    omega
  · omega
  · omega
  · omega

theorem popBackN_zero {α : Type} (l : List α) : popBackN 0 l = l := rfl

theorem LRUCache.lru_clear_clear {K V : Type} (s : LRUCache K V) : s.clear.clear = s.clear := by
  unfold LRUCache.clear
  simp only [(popBackN_length _ _).2, toInt_after_clear, popBackN_zero]

theorem FIFOCache.fifo_clear_clear {T : Type} (t : FIFOCache T) : t.clear.clear = t.clear := by
  unfold FIFOCache.clear
  simp only [(popBackN_length _ _).2, toInt_after_clear, popBackN_zero]

theorem LRUCache.lru_consumeLoop_zero {K V : Type} [DecidableEq K] (s : LRUCache K V) :
    s.consumeLoop 0 [] = ([], s) := rfl

theorem FIFOCache.fifo_consumeLoop_zero {T : Type} (t : FIFOCache T) :
    t.consumeLoop 0 [] = ([], t) := rfl

/-- The count computed by `consume(n)` on an empty container is 0, whatever `n`. -/
theorem bulk_count_empty (n : Int) : (toInt (if 0 > toSizeT n then toSizeT n else 0)).toNat = 0 := by
  rw [if_neg (by omega)]
  rfl

/-- Claim C15.  After `clear()`, `size()` is 0, every `consume` reports absent or empty
(the default-constructed result, the empty vector), `capacity()` is unchanged, and a
second `clear()` changes nothing.  It holds for an `LRUCache` and an `LFUCache` in every
state and for a `FIFOCache` in every state with fewer than `2^31` values; an `LRUCache`
with fewer than `2^31` entries has an empty list after `clear()`. -/
theorem C15_clear {K V T : Type} [DecidableEq K] [Inhabited K] [Inhabited V]
    [Inhabited T] (s : LRUCache K V) (t : FIFOCache T) (u : LFUCache K V) (key : K)
    (n : Int) (ht : t._cacheList.length < 2 ^ 31) :
    (s.clear.size = 0 ∧ s.clear.capacity = s.capacity ∧
      s.clear.consumeKey key = (default, s.clear) ∧
      s.clear.consume = (default, s.clear) ∧
      s.clear.consumeN n = ([], s.clear) ∧
      s.clear.clear = s.clear ∧
      (s._cacheList.length < 2 ^ 31 → s.clear.entries = [])) ∧
    (t.clear.size = 0 ∧ t.clear.capacity = t.capacity ∧
      t.clear._cacheList = [] ∧
      t.clear.consume = (default, t.clear) ∧
      t.clear.consumeN n = ([], t.clear) ∧
      t.clear.clear = t.clear) ∧
    (u.clear.size = 0 ∧ u.clear.capacity = u.capacity ∧
      u.clear.consume key = (default, u.clear) ∧
      u.clear.clear = u.clear) := by
  refine ⟨⟨rfl, rfl, ?_, ?_, ?_, LRUCache.lru_clear_clear s, ?_⟩, ⟨?_, rfl, ?_, ?_, ?_,
    FIFOCache.fifo_clear_clear t⟩, ⟨rfl, rfl, rfl, rfl⟩⟩
  · unfold LRUCache.consumeKey
    rw [if_neg (by simp [LRUCache.clear])]
  · unfold LRUCache.consume
    rw [if_neg (by simp [LRUCache.clear])]
  · have h1 : s.clear.consumeN n = s.clear.consumeLoop
        (toInt (if s.clear.m.length > toSizeT n then toSizeT n
          else s.clear.m.length)).toNat [] := rfl
    have h2 : s.clear.m.length = 0 := rfl
    rw [h1, h2, bulk_count_empty, LRUCache.lru_consumeLoop_zero]
  · intro hs
    unfold LRUCache.entries LRUCache.clear
    simp only [toInt_of_lt _ hs, Int.toNat_natCast, (popBackN_length 0 s._cacheList).1,
      List.map_nil]
  all_goals
    have hl : t.clear._cacheList = [] := by
      unfold FIFOCache.clear
      simp only [toInt_of_lt _ ht, Int.toNat_natCast, (popBackN_length 0 t._cacheList).1]
  · unfold FIFOCache.size
    rw [hl]; rfl
  · exact hl
  · exact FIFOCache.fifo_consume_nil _ hl
  · have h1 : t.clear.consumeN n = t.clear.consumeLoop
        (toInt (if t.clear._cacheList.length > toSizeT n then toSizeT n
          else t.clear._cacheList.length)).toNat [] := rfl
    rw [h1, hl]
    show FIFOCache.consumeLoop (toInt (if 0 > toSizeT n then toSizeT n else 0)).toNat _ _ = _
    rw [bulk_count_empty, FIFOCache.fifo_consumeLoop_zero]

/-- Witness of C15 on caches that hold two entries. -/
theorem C15_clear_witness :
    (LRUCache.run 5 [LRUCache.Op.produce 2 "b", LRUCache.Op.produce 1 "a"]).clear.size = 0 ∧
    (LRUCache.run 5 [LRUCache.Op.produce 2 "b", LRUCache.Op.produce 1 "a"]).clear.entries
      = [] ∧
    (FIFOCache.run 5 [FIFOCache.Op.produce "b", FIFOCache.Op.produce "a"]).clear.size = 0 ∧
    (LFUCache.run 5 0 [LFUCache.Op.produce 2 "b", LFUCache.Op.produce 1 "a"]).clear.size
      = 0 := by
  have hw := C15_clear
    (LRUCache.run 5 [LRUCache.Op.produce 2 "b", LRUCache.Op.produce 1 "a"])
    (FIFOCache.run 5 [FIFOCache.Op.produce "b", FIFOCache.Op.produce "a"])
    (LFUCache.run 5 0 [LFUCache.Op.produce 2 "b", LFUCache.Op.produce 1 "a"]) 1 3
    (by decide)
  exact ⟨hw.1.1, hw.1.2.2.2.2.2.2 (by decide), hw.2.1.1, hw.2.2.1⟩

end Caches


namespace Caches

namespace LFUCache

variable {K V : Type} [DecidableEq K]

/-! ## LFUCache: produce on a live key, tracked minimum, buckets -/

/-- Claim C16 (the code departs from it).  `LFUCache::produce` and `LFUCache::consume`
take no lock, so two calls can both run their tests before either writes.  Two
`produce` calls for key 1 on an empty cache of capacity 2 both find the key absent and
the cache not full, so each goes on to the insertion; the second insertion then runs on
the state the first has left, and the result has two nodes for key 1 in bucket 1, one of
which `_keyIter` does not designate: the state is not consistent.  The same two calls one
after the other leave a consistent state. -/
theorem C16_lfu_unlocked_interleaving :
    (new 2 0 : LFUCache Nat String).produce 1 "a" = (new 2 0).insertNew 1 "a" ∧
    (new 2 0 : LFUCache Nat String).produce 1 "b" = (new 2 0).insertNew 1 "b" ∧
    fmGet (((new 2 0 : LFUCache Nat String).insertNew 1 "a").insertNew 1 "b")._freqMap 1
      = [(0, 1), (1, 1)] ∧
    umFind (((new 2 0 : LFUCache Nat String).insertNew 1 "a").insertNew 1 "b")._keyIter 1
      = some 1 ∧
    ¬ (((new 2 0 : LFUCache Nat String).insertNew 1 "a").insertNew 1 "b").Wf ∧
    (((new 2 0 : LFUCache Nat String).produce 1 "a").produce 1 "b").Wf := by
  refine ⟨by decide, by decide, by decide, by decide, ?_, ?_⟩
  · intro hw
    have := (hw.bucket 1 0 1 (by decide)).1
    revert this
    decide
  · exact (lfu_run_good (K := Nat) (V := String) 2 0 (by decide)
      [Op.produce 1 "b", Op.produce 1 "a"]).1

end LFUCache

end Caches

